/-
  Verification of the calendar layout engine (Month/Week/Day views).

  Shallow embedding of the layout and date-utility functions of the
  repository.  Instants are modelled as integers counting milliseconds
  since an epoch whose day 0 is a Thursday (as in the JavaScript `Date`
  epoch), with uniform 86_400_000-millisecond days (local wall-clock
  semantics, no DST — per the spec's stated non-goals).  Pixel values are
  rationals.  dayjs primitives used by the code (`startOf`, `endOf`,
  `diff` with a unit, `isBefore`/`isAfter` with and without a unit,
  `isBetween` with inclusivity "[]") are embedded following the dayjs
  implementation: `diff` truncates toward zero, `isBefore(x, u)` is
  `endOf(u) < x`, `isAfter(x, u)` is `x < startOf(u)`.
-/
import Mathlib

/-- Milliseconds per minute. -/
def msPerMinute : Int := 60000

/-- Milliseconds per hour. -/
def msPerHour : Int := 3600000

/-- Milliseconds per day. -/
def msPerDay : Int := 86400000

/-- `MINUTES_IN_DAY` from `utils/dateUtils`. -/
def MINUTES_IN_DAY : Int := 1440

/-- `HOURS_IN_DAY` from `utils/dateUtils`. -/
def HOURS_IN_DAY : Int := 24

/-- `WEEK_VIEW_HOUR_HEIGHT` from `WeekView/constants.ts`. -/
def WEEK_VIEW_HOUR_HEIGHT : ℚ := 80

/-- `MAX_EVENTS_PER_SLOT` from `WeekView/constants.ts`. -/
def MAX_EVENTS_PER_SLOT : Nat := 2

/-- `INDICATOR_COLLAPSED_ROWS` from `WeekView/constants.ts`. -/
def INDICATOR_COLLAPSED_ROWS : Nat := 2

/-- dayjs `startOf("day")`: local midnight at or before `t`
(floor to a multiple of `msPerDay`; `Int.emod` is nonnegative for a
positive modulus, so this is the floor). -/
def startOfDay (t : Int) : Int := t - Int.emod t msPerDay

/-- dayjs `endOf("day")`: 23:59:59.999 of the day of `t`. -/
def endOfDay (t : Int) : Int := startOfDay t + (msPerDay - 1)

/-- dayjs `startOf("minute")`. -/
def startOfMinute (t : Int) : Int := t - Int.emod t msPerMinute

/-- dayjs `endOf("minute")`: xx:xx:59.999. -/
def endOfMinute (t : Int) : Int := startOfMinute t + (msPerMinute - 1)

/-- Absolute day index of an instant (floor of `t / msPerDay`). -/
def dayIndexOf (t : Int) : Int := Int.ediv t msPerDay

/-- dayjs `.day()`: day of week, 0 = Sunday … 6 = Saturday.  Day 0 of the
epoch is a Thursday, hence the offset 4. -/
def dayOfWeek (t : Int) : Int := Int.emod (dayIndexOf t + 4) 7

/-- dayjs `endOf("week")` with the default Sunday-start locale: the last
millisecond of the Saturday of `t`'s week. -/
def endOfWeek (t : Int) : Int :=
  startOfDay t + (6 - dayOfWeek t) * msPerDay + (msPerDay - 1)

/-- dayjs `.hour()` wall-clock hour (0‥23) of an instant. -/
def hourOf (t : Int) : Int := Int.ediv (Int.emod t msPerDay) msPerHour

/-- dayjs `.minute()` wall-clock minute (0‥59) of an instant. -/
def minuteOf (t : Int) : Int := Int.ediv (Int.emod t msPerHour) msPerMinute

/-- dayjs `a.diff(b, "minute")`: millisecond difference divided by 60000,
truncated toward zero (dayjs `absFloor`). -/
def diffMinute (a b : Int) : Int := Int.tdiv (a - b) msPerMinute

/-- dayjs `a.diff(b, "day")`: millisecond difference divided by one day,
truncated toward zero. -/
def diffDay (a b : Int) : Int := Int.tdiv (a - b) msPerDay

/-- dayjs `this.isBefore(that, "day")` = `this.endOf("day") < that`. -/
def isBeforeDay (this that : Int) : Bool := endOfDay this < that

/-- dayjs `this.isAfter(that, "day")` = `that < this.startOf("day")`. -/
def isAfterDay (this that : Int) : Bool := that < startOfDay this

/-- dayjs `this.isBefore(that, "minute")` = `this.endOf("minute") < that`. -/
def isBeforeMinute (this that : Int) : Bool := endOfMinute this < that

/-- dayjs `this.isAfter(that, "minute")` = `that < this.startOf("minute")`. -/
def isAfterMinute (this that : Int) : Bool := that < startOfMinute this

/-- dayjs `this.isBetween(a, b, "day", "[]")` (isBetween plugin):
`(!isBefore(a,"day") && !isAfter(b,"day")) || (!isAfter(a,"day") && !isBefore(b,"day"))`. -/
def isBetweenDayIncl (this a b : Int) : Bool :=
  (!(isBeforeDay this a) && !(isAfterDay this b)) ||
    (!(isAfterDay this a) && !(isBeforeDay this b))

/-- `CalendarEvent` from `types` (`id`, `eventId` — the grouping key —,
`start`, `end`; the `end` field is called `stop` because `end` is a Lean
keyword; `title` and `meta` play no role in the verified layout math). -/
structure CalendarEvent where
  id : String
  eventId : String
  start : Int
  stop : Int
deriving DecidableEq, Repr

/-- `getDayStart` from `utils/dateUtils` (dayjs `startOf("day")`). -/
def getDayStart (t : Int) : Int := startOfDay t

/-- `getDayEnd` from `utils/dateUtils` (dayjs `endOf("day")`, 23:59:59.999). -/
def getDayEnd (t : Int) : Int := endOfDay t

/-- `getDurationHours` from `utils/dateUtils`:
`dayjs(end).diff(dayjs(start), "hour", true)` — exact (float) hour
difference, embedded as a rational. -/
def getDurationHours (s e : Int) : ℚ := ((e - s : Int) : ℚ) / (msPerHour : ℚ)

/-- `clampToDay` from `utils/dateUtils`: nearest boundary if outside
`[dayStart, dayEnd]`, the input otherwise. -/
def clampToDay (t ds de : Int) : Int :=
  if t < ds then ds else if de < t then de else t

/-- `eventOverlapsDay` from `utils/dateUtils`:
`dayjs(eventStart).isBefore(dayEnd) && dayjs(eventEnd).isAfter(dayStart)`
with `dayStart = getDayStart targetDate`, `dayEnd = getDayEnd targetDate`
(millisecond-strict comparisons). -/
def eventOverlapsDay (eventStart eventEnd targetDate : Int) : Bool :=
  eventStart < getDayEnd targetDate && getDayStart targetDate < eventEnd

/-- Vertical position returned by `getEventPosition` (`top`, `height` in
pixels). -/
structure VerticalPosition where
  top : ℚ
  height : ℚ
deriving DecidableEq, Repr

/-- `getEventPosition` from the DayView utilities: clamp the event to the
target day, `top = (startHour + startMinute/60) * hourHeight`,
`height = max(durationHours * hourHeight, 20)`. -/
def getEventPosition (event : CalendarEvent) (hourHeight : ℚ)
    (targetDate : Int) : VerticalPosition :=
  let ds := getDayStart targetDate
  let de := getDayEnd targetDate
  let renderStart := clampToDay event.start ds de
  let renderEnd := clampToDay event.stop ds de
  let top : ℚ := ((hourOf renderStart : ℚ) + (minuteOf renderStart : ℚ) / 60) * hourHeight
  let height : ℚ := max (getDurationHours renderStart renderEnd * hourHeight) 20
  { top := top, height := height }

/-! ### Week view: per-day overlap grouping (`WeekView/components/DayColumn.tsx`) -/

/-- The symmetric overlap test used in `DayColumn.tsx` (`eventGroups` filter):
`(oStart.isBefore(eEnd) && oEnd.isAfter(eStart)) ||
 (eStart.isBefore(oEnd) && eEnd.isAfter(oStart))`. -/
def overlapsJS (event other : CalendarEvent) : Bool :=
  (other.start < event.stop && event.start < other.stop) ||
    (event.start < other.stop && other.start < event.stop)

/-- `[...events].sort((a, b) => dayjs(a.start).diff(dayjs(b.start)))`:
stable ascending sort by start instant. -/
def sortByStart (events : List CalendarEvent) : List CalendarEvent :=
  List.insertionSort (fun a b => a.start ≤ b.start) events

/-- The `eventGroups` loop of `DayColumn.tsx`: walk the sorted events; for
each not-yet-processed event gather every unprocessed event overlapping
it, mark them all processed, and keep the first `MAX_EVENTS_PER_SLOT` of
them as one rendered group. -/
def eventGroupsLoop (sortedEvents : List CalendarEvent) :
    List CalendarEvent → List String → List (List CalendarEvent)
  | [], _ => []
  | e :: rest, processed =>
    if processed.contains e.id then eventGroupsLoop sortedEvents rest processed
    else
      let overlapping := sortedEvents.filter
        (fun other => !(processed.contains other.id) && overlapsJS e other)
      overlapping.take MAX_EVENTS_PER_SLOT ::
        eventGroupsLoop sortedEvents rest (processed ++ overlapping.map (fun o => o.id))

/-- `eventGroups` from `DayColumn.tsx`. -/
def eventGroups (events : List CalendarEvent) : List (List CalendarEvent) :=
  let sortedEvents := sortByStart events
  eventGroupsLoop sortedEvents sortedEvents []

/-- The per-group `overflow` computed in `DayColumn.tsx`: when a rendered
group is full (`group.length === MAX_EVENTS_PER_SLOT`), the number of
events of the day overlapping `group[0]`, minus `MAX_EVENTS_PER_SLOT`;
otherwise 0. -/
def groupOverflow (events : List CalendarEvent) (group : List CalendarEvent) : Int :=
  match group with
  | [] => 0
  | g0 :: _ =>
    if group.length = MAX_EVENTS_PER_SLOT then
      ((events.filter (fun e =>
          (e.start < g0.stop && g0.start < e.stop) ||
            (g0.start < e.stop && e.start < g0.stop))).length : Int)
        - (MAX_EVENTS_PER_SLOT : Int)
    else 0

/-! ### Day-level overflow sweep (`calculateDayOverflow`, WeekView utils) -/

/-- The `points` array of `calculateDayOverflow`: for each event, a
`(start, +1)` and an `(end, −1)` instant, in event order. -/
def pointsOf (events : List CalendarEvent) : List (Int × Int) :=
  events.foldr (fun e acc => (e.start, 1) :: (e.stop, -1) :: acc) []

/-- The order of the comparator
`(a, b) => (a.t === b.t ? a.d - b.d : a.t - b.t)`: ascending by time,
delta `−1` before `+1` on equal times. -/
def ptLE (p q : Int × Int) : Prop := p.1 < q.1 ∨ (p.1 = q.1 ∧ p.2 ≤ q.2)

instance (p q : Int × Int) : Decidable (ptLE p q) := by
  unfold ptLE; infer_instance

instance : IsTotal (Int × Int) ptLE where
  total p q := by
    unfold ptLE
    rcases lt_trichotomy p.1 q.1 with h | h | h
    · exact Or.inl (Or.inl h)
    · rcases le_total p.2 q.2 with h2 | h2
      · exact Or.inl (Or.inr ⟨h, h2⟩)
      · exact Or.inr (Or.inr ⟨h.symm, h2⟩)
    · exact Or.inr (Or.inl h)

instance : IsTrans (Int × Int) ptLE where
  trans p q r hpq hqr := by
    unfold ptLE at *
    rcases hpq with h | ⟨he, hd⟩ <;> rcases hqr with h' | ⟨he', hd'⟩
    · exact Or.inl (h.trans h')
    · exact Or.inl (he' ▸ h)
    · exact Or.inl (he ▸ h')
    · exact Or.inr ⟨he.trans he', hd.trans hd'⟩

instance : IsAntisymm (Int × Int) ptLE where
  antisymm p q hpq hqp := by
    unfold ptLE at *
    rcases hpq with h | ⟨he, hd⟩ <;> rcases hqp with h' | ⟨he', hd'⟩
    · exact absurd (h.trans h') (lt_irrefl _)
    · exact absurd h (he' ▸ lt_irrefl _)
    · exact absurd h' (he ▸ lt_irrefl _)
    · exact Prod.ext he (le_antisymm hd hd')

/-- `points.sort(...)` of `calculateDayOverflow`. -/
def sortPoints (ps : List (Int × Int)) : List (Int × Int) :=
  List.insertionSort ptLE ps

/-- The sweep loop of `calculateDayOverflow`: running sum `cur`, running
maximum `maxOverlap` (updated whenever `cur > maxOverlap`). -/
def sweepAux : Int → Int → List (Int × Int) → Int
  | _, maxOverlap, [] => maxOverlap
  | cur, maxOverlap, p :: ps =>
    let c := cur + p.2
    sweepAux c (if maxOverlap < c then c else maxOverlap) ps

/-- `calculateDayOverflow` from the WeekView property-bar utilities:
`0` on an empty list, else `Math.max(0, maxOverlap - 2)` where
`maxOverlap` is the sweep maximum. -/
def calculateDayOverflow (events : List CalendarEvent) : Int :=
  if events.length = 0 then 0
  else max 0 (sweepAux 0 0 (sortPoints (pointsOf events)) - 2)

/-! ### Property presence segments (Week property bar) -/

/-- `PropertyIndicatorData` from the WeekView types. -/
structure PropertyIndicatorData where
  propertyName : String
  propertyId : String
  startDay : Int
  endDay : Int
  color : String
deriving DecidableEq, Repr

/-- The contiguous-segment loop of `getPropertyIndicatorData` (WeekView
utils): extend the current `[segmentStart, segmentEnd]` run while the next
presence day is `segmentEnd + 1`, else emit the run and start a new one;
the final run is emitted at the end. -/
def segmentsLoop (nm pid col : String) :
    Int → Int → List Int → List PropertyIndicatorData
  | segmentStart, segmentEnd, [] => [⟨nm, pid, segmentStart, segmentEnd, col⟩]
  | segmentStart, segmentEnd, d :: rest =>
    if d = segmentEnd + 1 then segmentsLoop nm pid col segmentStart d rest
    else ⟨nm, pid, segmentStart, segmentEnd, col⟩ :: segmentsLoop nm pid col d d rest

/-- Per-property segmentation of `getPropertyIndicatorData`: sort the
presence-day set ascending (`Array.from(set).sort((a, b) => a - b)`),
return no indicator on an empty set, else run the contiguous-segment
loop starting from the first day. -/
def presenceSegments (nm pid col : String) (presenceDays : List Int) :
    List PropertyIndicatorData :=
  match List.insertionSort (fun a b : Int => a ≤ b) presenceDays with
  | [] => []
  | d0 :: rest => segmentsLoop nm pid col d0 d0 rest

/-- An indicator together with its assigned row
(`{ ...ind, row }` in `getPropertyIndicatorsWithRows`). -/
structure RowedIndicator where
  ind : PropertyIndicatorData
  row : Nat
deriving DecidableEq, Repr

/-- `Map.get` on an insertion-ordered association list
(`propertyIdToRow` in `getPropertyIndicatorsWithRows`). -/
def lookupRow (m : List (String × Nat)) (k : String) : Option Nat :=
  (m.find? (fun e => e.1 == k)).map (fun e => e.2)

/-- The loop of `getPropertyIndicatorsWithRows`: each new `propertyId`
claims the next row index (`propertyIdToRow.size`); existing ids reuse
their stored row. -/
def withRowsLoop : List (String × Nat) → List PropertyIndicatorData → List RowedIndicator
  | _, [] => []
  | assigned, ind :: rest =>
    let assigned2 := if (lookupRow assigned ind.propertyId).isSome then assigned
      else assigned ++ [(ind.propertyId, assigned.length)]
    let row := (lookupRow assigned2 ind.propertyId).getD 0
    ⟨ind, row⟩ :: withRowsLoop assigned2 rest

/-- `getPropertyIndicatorsWithRows` from the WeekView property-bar utils. -/
def getPropertyIndicatorsWithRows (propertyIndicators : List PropertyIndicatorData) :
    List RowedIndicator :=
  withRowsLoop [] propertyIndicators

/-! ### Month view layout (`MonthView/utils`) -/

/-- `HorizontalPosition` from the MonthView types. -/
structure HorizontalPosition where
  left : ℚ
  width : ℚ
deriving DecidableEq, Repr

/-- `EventPosition` from the MonthView types. -/
structure EventPosition where
  event : CalendarEvent
  left : ℚ
  width : ℚ
  row : Nat
  weekIndex : Nat
  isVisible : Bool
  isFirstWeek : Bool
  isLastWeek : Bool
deriving DecidableEq, Repr

/-- `getHorizontalPositionInDay` from the MonthView utils: clamp the event
to the day, then `left/width = minutes / MINUTES_IN_DAY * cellWidth`. -/
def getHorizontalPositionInDay (event : CalendarEvent) (date : Int)
    (cellWidth : ℚ) : HorizontalPosition :=
  let dayStart := startOfDay date
  let dayEnd := endOfDay date
  let eventStart := if event.start < dayStart then dayStart else event.start
  let eventEnd := if dayEnd < event.stop then dayEnd else event.stop
  let startMinutes := diffMinute eventStart dayStart
  let durationMinutes := diffMinute eventEnd eventStart
  { left := (startMinutes : ℚ) / (MINUTES_IN_DAY : ℚ) * cellWidth,
    width := (durationMinutes : ℚ) / (MINUTES_IN_DAY : ℚ) * cellWidth }

/-- `getMultiDayPosition` from the MonthView utils.  Returns `none` when
the event misses the week (`eventEnd.isBefore(weekStart, "day") ||
eventStart.isAfter(weekEnd, "day")` with `weekEnd =
weekStartDate.endOf("week")`), otherwise the four-case horizontal
placement with the width floored at 2 pixels. -/
def getMultiDayPosition (event : CalendarEvent) (weekStartDate : Int)
    (weekIndex : Nat) (cellWidth : ℚ) : Option EventPosition :=
  let eventStart := event.start
  let eventEnd := event.stop
  let weekEndDate := endOfWeek weekStartDate
  if isBeforeDay eventEnd weekStartDate || isAfterDay eventStart weekEndDate then
    none
  else
    let isStartWeek := isBetweenDayIncl eventStart weekStartDate weekEndDate
    let isEndWeek := isBetweenDayIncl eventEnd weekStartDate weekEndDate
    let lw : ℚ × ℚ :=
      if isStartWeek && isEndWeek then
        let startDayOfWeek := dayOfWeek eventStart
        let endDayOfWeek := dayOfWeek eventEnd
        let startDate := startOfDay eventStart
        let startPos := getHorizontalPositionInDay event startDate cellWidth
        let daySpan := endDayOfWeek - startDayOfWeek
        if daySpan = 0 then
          ((startDayOfWeek : ℚ) * cellWidth + startPos.left, startPos.width)
        else
          let endDate := startOfDay eventEnd
          let endPos := getHorizontalPositionInDay event endDate cellWidth
          ((startDayOfWeek : ℚ) * cellWidth + startPos.left,
            cellWidth - startPos.left + ((daySpan : ℚ) - 1) * cellWidth
              + endPos.left + endPos.width)
      else if isStartWeek then
        let startDayOfWeek := dayOfWeek eventStart
        let startDate := startOfDay eventStart
        let startPos := getHorizontalPositionInDay event startDate cellWidth
        ((startDayOfWeek : ℚ) * cellWidth + startPos.left,
          (7 - (startDayOfWeek : ℚ)) * cellWidth - startPos.left)
      else if isEndWeek then
        let endDayOfWeek := dayOfWeek eventEnd
        let endDate := startOfDay eventEnd
        let endPos := getHorizontalPositionInDay event endDate cellWidth
        (0, (endDayOfWeek : ℚ) * cellWidth + endPos.left + endPos.width)
      else
        (0, 7 * cellWidth)
    some { event := event, left := lw.1, width := max lw.2 2, row := 0,
           weekIndex := weekIndex, isVisible := true,
           isFirstWeek := isStartWeek, isLastWeek := isEndWeek }

/-- JavaScript `Set` insertion-order collection of distinct strings
(`uniqueEventIds` in `assignGlobalRows`, `eventIdsOnThisDay` in
`calculateOverflowByDay`). -/
def collectUnique (l : List String) : List String :=
  l.foldl (fun acc k => if acc.contains k then acc else acc ++ [k]) []

/-- `Array.from(set).sort()`: lexicographic ascending sort of the distinct
keys (JavaScript compares strings by code units; the embedding compares
by code points, which agrees on all code below the surrogate range). -/
def sortStrings (l : List String) : List String :=
  List.insertionSort (fun a b : String => a ≤ b) l

/-- `globalEventIdToRow.get(eventId) || 0`: the key's index in the sorted
distinct-key list, or 0 when absent. -/
def jsRowLookup (keys : List String) (k : String) : Nat :=
  (keys.indexOf? k).getD 0

/-- The sorted distinct `eventId` list collected across all positions
(steps 1–2 of `assignGlobalRows`). -/
def monthGroupKeys (positions : List EventPosition) : List String :=
  sortStrings (collectUnique (positions.map (fun pos => pos.event.eventId)))

/-- Step 4 per-position update of `assignGlobalRows`:
`{ ...pos, row, isVisible: row < maxVisibleRows }`. -/
def updatePos (keys : List String) (maxVisibleRows : Nat)
    (pos : EventPosition) : EventPosition :=
  let row := jsRowLookup keys pos.event.eventId
  { pos with row := row, isVisible := decide (row < maxVisibleRows) }

/-- `Map<number, EventPosition[]>` push: append to the bucket of `k`
(insertion-ordered keys, as a JavaScript `Map`). -/
def mapPush (m : List (Nat × List EventPosition)) (k : Nat)
    (p : EventPosition) : List (Nat × List EventPosition) :=
  match m with
  | [] => [(k, [p])]
  | (k0, l0) :: rest =>
    if k0 = k then (k0, l0 ++ [p]) :: rest else (k0, l0) :: mapPush rest k p

/-- `assignGlobalRows` from the MonthView utils: global sorted-key row
assignment, then grouping of the updated positions by `weekIndex`. -/
def assignGlobalRows (positions : List EventPosition) (maxVisibleRows : Nat) :
    List (Nat × List EventPosition) :=
  let sortedEventIds := monthGroupKeys positions
  positions.foldl
    (fun grouped pos =>
      mapPush grouped pos.weekIndex (updatePos sortedEventIds maxVisibleRows pos))
    []

/-- The minute-granularity day-overlap test of `calculateOverflowByDay`:
`eventStart.isBefore(dayEnd, "minute") && eventEnd.isAfter(dayStart, "minute")`
where `dayStart` is the cell day's midnight and `dayEnd` its 23:59:59.999. -/
def touchesDayMinute (eventStart eventEnd dayStartMs : Int) : Bool :=
  isBeforeMinute eventStart (dayStartMs + (msPerDay - 1)) &&
    isAfterMinute eventEnd dayStartMs

/-- The distinct `eventId`s of the positions of week `weekIndex` touching
the day starting at `dayStartMs` (the `eventIdsOnThisDay` set). -/
def cellEventIds (eventPositions : List EventPosition) (weekIndex : Nat)
    (dayStartMs : Int) : List String :=
  collectUnique ((eventPositions.filter (fun pos =>
    pos.weekIndex == weekIndex &&
      touchesDayMinute pos.event.start pos.event.stop dayStartMs)).map
    (fun pos => pos.event.eventId))

/-- Inner (per-day) loop of `calculateOverflowByDay`.  Calendar dates are
modelled by absolute day indices: `monthDay1` is the day index of the
target month's day 1, so `target.date(dayNum).startOf("day")` is
`(monthDay1 + dayNum - 1) * msPerDay`.  The JavaScript map key
`` `${weekIndex}-${dayIndex}` `` is modelled as the pair
`(weekIndex, dayIndex)` (the string template is injective on it). -/
def overflowRow (eventPositions : List EventPosition) (monthDay1 : Int)
    (maxVisibleRows : Nat) (weekIndex : Nat) :
    Nat → List Int → List ((Nat × Nat) × Nat)
  | _, [] => []
  | dayIndex, dayNum :: rest =>
    (if dayNum ≤ 0 then []
     else
       let dayStartMs := (monthDay1 + dayNum - 1) * msPerDay
       let totalRows := (cellEventIds eventPositions weekIndex dayStartMs).length
       let hiddenCount := totalRows - maxVisibleRows
       if 0 < hiddenCount then [((weekIndex, dayIndex), hiddenCount)] else [])
      ++ overflowRow eventPositions monthDay1 maxVisibleRows weekIndex
          (dayIndex + 1) rest

/-- Outer (per-week) loop of `calculateOverflowByDay`. -/
def overflowWeeks (eventPositions : List EventPosition) (monthDay1 : Int)
    (maxVisibleRows : Nat) : Nat → List (List Int) → List ((Nat × Nat) × Nat)
  | _, [] => []
  | weekIndex, week :: rest =>
    overflowRow eventPositions monthDay1 maxVisibleRows weekIndex 0 week
      ++ overflowWeeks eventPositions monthDay1 maxVisibleRows (weekIndex + 1) rest

/-- `calculateOverflowByDay` from the MonthView utils: for each non-empty
calendar cell, the count of distinct group keys touching the day minus
`maxVisibleRows`, floored at 0, with zero entries omitted. -/
def calculateOverflowByDay (eventPositions : List EventPosition)
    (weeks : List (List Int)) (monthDay1 : Int) (maxVisibleRows : Nat) :
    List ((Nat × Nat) × Nat) :=
  overflowWeeks eventPositions monthDay1 maxVisibleRows 0 weeks

/-- `Map.get` on the overflow map. -/
def lookupOverflow (m : List ((Nat × Nat) × Nat)) (k : Nat × Nat) : Option Nat :=
  (m.find? (fun e => e.1 == k)).map (fun e => e.2)


/-- All positions stored in a grouped map, in bucket order (used to state
that the grouped output is a partition of the input). -/
def bucketJoin (m : List (Nat × List EventPosition)) : List EventPosition :=
  (m.map (fun e => e.2)).flatten

/-- Specification-side concurrency count: the number of events open at
instant `t`, with half-open `[start, end)` semantics (the semantics the
sweep's end-before-start tie-break realises). -/
def countOpenAt (events : List CalendarEvent) (t : Int) : Nat :=
  events.countP (fun e => e.start ≤ t && t < e.stop)

/-- Specification-side maximum simultaneous concurrency: the maximum of
`countOpenAt` over all event start instants. -/
def maxConcurrency (events : List CalendarEvent) : Nat :=
  (events.map (fun e => countOpenAt events e.start)).foldr max 0

/-- Sum of the deltas of all points `≤` a cut point in the comparator
order (the sweep value just after the cut). -/
def sumLE (l : List (Int × Int)) (p : Int × Int) : Int :=
  ((l.filter (fun q => decide (ptLE q p))).map (fun q => q.2)).sum

/-! ### Helper lemmas on the time model -/

theorem emod_day_nonneg (t : Int) : 0 ≤ Int.emod t msPerDay :=
  Int.emod_nonneg t (by norm_num [msPerDay])

theorem emod_day_lt (t : Int) : Int.emod t msPerDay < msPerDay :=
  Int.emod_lt_of_pos t (by norm_num [msPerDay])

theorem startOfDay_le (t : Int) : startOfDay t ≤ t := by
  have := emod_day_nonneg t
  unfold startOfDay; omega

theorem le_endOfDay (t : Int) : t ≤ endOfDay t := by
  have := emod_day_lt t
  unfold endOfDay startOfDay; omega

theorem clampToDay_mem (t ds de : Int) (h : ds ≤ de) :
    ds ≤ clampToDay t ds de ∧ clampToDay t ds de ≤ de := by
  unfold clampToDay
  split <;> [omega; (split <;> omega)]


theorem hourOf_nonneg (t : Int) : 0 ≤ hourOf t := by
  have h := emod_day_nonneg t
  exact Int.ediv_nonneg h (by norm_num [msPerHour])

theorem hourOf_le (t : Int) : hourOf t ≤ 23 := by
  have h := emod_day_lt t
  have h0 := emod_day_nonneg t
  unfold hourOf
  have : Int.ediv (Int.emod t msPerDay) msPerHour ≤ Int.ediv (msPerDay - 1) msPerHour := by
    apply Int.ediv_le_ediv (by norm_num [msPerHour])
    omega
  simpa [msPerDay, msPerHour] using this

theorem minuteOf_nonneg (t : Int) : 0 ≤ minuteOf t := by
  have h : 0 ≤ Int.emod t msPerHour := Int.emod_nonneg t (by norm_num [msPerHour])
  exact Int.ediv_nonneg h (by norm_num [msPerMinute])

theorem minuteOf_le (t : Int) : minuteOf t ≤ 59 := by
  have h : Int.emod t msPerHour < msPerHour := Int.emod_lt_of_pos t (by norm_num [msPerHour])
  have h0 : 0 ≤ Int.emod t msPerHour := Int.emod_nonneg t (by norm_num [msPerHour])
  unfold minuteOf
  have : Int.ediv (Int.emod t msPerHour) msPerMinute ≤ Int.ediv (msPerHour - 1) msPerMinute := by
    apply Int.ediv_le_ediv (by norm_num [msPerMinute])
    omega
  simpa [msPerHour, msPerMinute] using this

/-- The floored wall-clock hour/minute reading of `t` undershoots the exact
millisecond offset of `t` within its day. -/
theorem hourMinute_le (t : Int) :
    hourOf t * msPerHour + minuteOf t * msPerMinute ≤ Int.emod t msPerDay := by
  have e1 : msPerHour * Int.ediv (Int.emod t msPerDay) msPerHour
      + Int.emod (Int.emod t msPerDay) msPerHour = Int.emod t msPerDay :=
    Int.ediv_add_emod _ _
  have e2 : Int.emod (Int.emod t msPerDay) msPerHour = Int.emod t msPerHour := by
    apply Int.emod_emod_of_dvd
    norm_num [msPerHour, msPerDay]
  have e3 : msPerMinute * Int.ediv (Int.emod t msPerHour) msPerMinute
      + Int.emod (Int.emod t msPerHour) msPerMinute = Int.emod t msPerHour :=
    Int.ediv_add_emod _ _
  have e4 : 0 ≤ Int.emod (Int.emod t msPerHour) msPerMinute :=
    Int.emod_nonneg _ (by norm_num [msPerMinute])
  unfold hourOf minuteOf
  simp only [msPerDay, msPerHour, msPerMinute] at e1 e2 e3 e4 ⊢
  omega

theorem emod_eq_sub_startOfDay (t d : Int) (h1 : startOfDay d ≤ t)
    (h2 : t ≤ endOfDay d) : Int.emod t msPerDay = t - startOfDay d := by
  have q1 : 86400000 * Int.ediv t 86400000 + Int.emod t 86400000 = t :=
    Int.ediv_add_emod t 86400000
  have q2 : 86400000 * Int.ediv d 86400000 + Int.emod d 86400000 = d :=
    Int.ediv_add_emod d 86400000
  have r1 : 0 ≤ Int.emod t 86400000 := Int.emod_nonneg t (by norm_num)
  have r2 : Int.emod t 86400000 < 86400000 := Int.emod_lt_of_pos t (by norm_num)
  have r3 : 0 ≤ Int.emod d 86400000 := Int.emod_nonneg d (by norm_num)
  have r4 : Int.emod d 86400000 < 86400000 := Int.emod_lt_of_pos d (by norm_num)
  simp only [startOfDay, endOfDay, msPerDay] at *
  omega

theorem getEventPosition_top (event : CalendarEvent) (hourHeight : ℚ) (targetDate : Int) :
    (getEventPosition event hourHeight targetDate).top =
      ((hourOf (clampToDay event.start (getDayStart targetDate) (getDayEnd targetDate)) : ℚ) +
          (minuteOf (clampToDay event.start (getDayStart targetDate) (getDayEnd targetDate)) : ℚ) / 60) *
        hourHeight := rfl

theorem getEventPosition_height (event : CalendarEvent) (hourHeight : ℚ) (targetDate : Int) :
    (getEventPosition event hourHeight targetDate).height =
      max (getDurationHours
            (clampToDay event.start (getDayStart targetDate) (getDayEnd targetDate))
            (clampToDay event.stop (getDayStart targetDate) (getDayEnd targetDate)) *
          hourHeight) 20 := rfl

theorem fracHour_le (H M x : Int) (h : ℚ) (hh : 0 ≤ h)
    (hk : H * 3600000 + M * 60000 ≤ x) :
    ((H : ℚ) + (M : ℚ) / 60) * h ≤ (x : ℚ) / 3600000 * h := by
  apply mul_le_mul_of_nonneg_right _ hh
  have e : (H : ℚ) + (M : ℚ) / 60 = ((H * 3600000 + M * 60000 : Int) : ℚ) / 3600000 := by
    push_cast; ring
  rw [e, div_le_div_iff_of_pos_right (by norm_num)]
  exact_mod_cast hk

/-- C2 (amended): `getEventPosition` always returns `topPixels ≥ 0` and
`topPixels ≤ 24·hourHeight`; `topPixels + heightPixels` is bounded by
`24·hourHeight + 20`, and by `24·hourHeight` itself whenever the
un-floored height `durationHours·hourHeight` already reaches the
20-pixel minimum.  (The 20-pixel floor can push the bottom edge past the
day's total pixel height by less than 20 pixels.) -/
theorem getEventPosition_clamped (event : CalendarEvent) (hourHeight : ℚ)
    (targetDate : Int) (hh : 0 ≤ hourHeight) :
    0 ≤ (getEventPosition event hourHeight targetDate).top ∧
      (getEventPosition event hourHeight targetDate).top ≤ 24 * hourHeight ∧
      (getEventPosition event hourHeight targetDate).top +
          (getEventPosition event hourHeight targetDate).height ≤
        24 * hourHeight + 20 ∧
      (20 ≤ getDurationHours
            (clampToDay event.start (getDayStart targetDate) (getDayEnd targetDate))
            (clampToDay event.stop (getDayStart targetDate) (getDayEnd targetDate)) *
            hourHeight →
        (getEventPosition event hourHeight targetDate).top +
            (getEventPosition event hourHeight targetDate).height ≤ 24 * hourHeight) := by
  rw [getEventPosition_top, getEventPosition_height]
  set ds := getDayStart targetDate with hds
  set de := getDayEnd targetDate with hde
  set rs := clampToDay event.start ds de with hrs
  set re := clampToDay event.stop ds de with hre
  have hdsde : ds ≤ de := by
    rw [hds, hde]; simp only [getDayStart, getDayEnd, endOfDay, msPerDay]; omega
  obtain ⟨hrs1, hrs2⟩ := clampToDay_mem event.start ds de hdsde
  obtain ⟨hre1, hre2⟩ := clampToDay_mem event.stop ds de hdsde
  have hdss : ds = startOfDay targetDate := hds
  have hdee : de = endOfDay targetDate := hde
  have hrsday : Int.emod rs msPerDay = rs - ds := by
    rw [hdss]
    exact emod_eq_sub_startOfDay rs targetDate (hdss ▸ hrs1) (hdee ▸ hrs2)
  have hk : hourOf rs * 3600000 + minuteOf rs * 60000 ≤ rs - ds := by
    have h0 := hourMinute_le rs
    rw [hrsday] at h0
    simpa only [msPerHour, msPerMinute] using h0
  have hfrac : ∀ x : Int, x ≤ 86400000 →
      ((x : ℚ) / 3600000) * hourHeight ≤ 24 * hourHeight := by
    intro x hx
    apply mul_le_mul_of_nonneg_right _ hh
    rw [div_le_iff₀ (by norm_num)]
    exact_mod_cast le_trans hx (by norm_num)
  have hT : ((hourOf rs : ℚ) + (minuteOf rs : ℚ) / 60) * hourHeight ≤
      ((rs - ds : Int) : ℚ) / 3600000 * hourHeight :=
    fracHour_le _ _ _ _ hh hk
  have hT24 : ((hourOf rs : ℚ) + (minuteOf rs : ℚ) / 60) * hourHeight ≤
      24 * hourHeight := by
    refine le_trans hT (hfrac _ ?_)
    have : de = ds + (msPerDay - 1) := by
      rw [hds, hde]; simp only [getDayStart, getDayEnd, endOfDay]
    simp only [msPerDay] at this
    omega
  have hdur : getDurationHours rs re = ((re - rs : Int) : ℚ) / 3600000 := by
    unfold getDurationHours
    norm_num [msPerHour]
  have hsum : ((hourOf rs : ℚ) + (minuteOf rs : ℚ) / 60) * hourHeight +
      getDurationHours rs re * hourHeight ≤ 24 * hourHeight := by
    have hcomb : ((rs - ds : Int) : ℚ) / 3600000 * hourHeight +
        ((re - rs : Int) : ℚ) / 3600000 * hourHeight =
        ((re - ds : Int) : ℚ) / 3600000 * hourHeight := by
      push_cast; ring
    have hle : ((hourOf rs : ℚ) + (minuteOf rs : ℚ) / 60) * hourHeight +
        getDurationHours rs re * hourHeight ≤
        ((re - ds : Int) : ℚ) / 3600000 * hourHeight := by
      rw [hdur, ← hcomb]
      exact add_le_add_right hT _
    refine le_trans hle (hfrac _ ?_)
    have : de = ds + (msPerDay - 1) := by
      rw [hds, hde]; simp only [getDayStart, getDayEnd, endOfDay]
    simp only [msPerDay] at this
    omega
  have htop0 : 0 ≤ ((hourOf rs : ℚ) + (minuteOf rs : ℚ) / 60) * hourHeight := by
    apply mul_nonneg _ hh
    have h1 : (0:ℚ) ≤ (hourOf rs : ℚ) := by exact_mod_cast hourOf_nonneg rs
    have h2 : (0:ℚ) ≤ (minuteOf rs : ℚ) := by exact_mod_cast minuteOf_nonneg rs
    linarith
  refine ⟨htop0, hT24, ?_, ?_⟩
  · rcases le_total (getDurationHours rs re * hourHeight) 20 with hc | hc
    · rw [max_eq_right hc]
      linarith
    · rw [max_eq_left hc]
      linarith
  · intro hge
    rw [max_eq_left hge]
    exact hsum

/-- C2 counterexample: an event from 23:50 to 23:55 of day 0 with the
default 80-pixel hour height gets `top = 5720/3 ≈ 1906.67` and the
minimum height 20, so `top + height ≈ 1926.67` exceeds
`24 * 80 = 1920`. -/
theorem getEventPosition_exceeds_day :
    ¬ ((getEventPosition ⟨"e1", "p-1", 85800000, 86100000⟩ 80 0).top +
        (getEventPosition ⟨"e1", "p-1", 85800000, 86100000⟩ 80 0).height ≤
      24 * 80) := by
  norm_num [getEventPosition, getDayStart, getDayEnd, startOfDay, endOfDay,
    clampToDay, hourOf, minuteOf, getDurationHours, msPerMinute, msPerHour,
    msPerDay]

/-- C2 witness: the amended bound instantiated at a one-hour event on day 0
with the default 80-pixel hour height. -/
theorem getEventPosition_clamped_witness :
    0 ≤ (getEventPosition ⟨"e1", "p-1", 0, 3600000⟩ 80 0).top ∧
      (getEventPosition ⟨"e1", "p-1", 0, 3600000⟩ 80 0).top ≤ 24 * 80 ∧
      (getEventPosition ⟨"e1", "p-1", 0, 3600000⟩ 80 0).top +
          (getEventPosition ⟨"e1", "p-1", 0, 3600000⟩ 80 0).height ≤
        24 * 80 + 20 ∧
      (20 ≤ getDurationHours
            (clampToDay (0 : Int) (getDayStart 0) (getDayEnd 0))
            (clampToDay 3600000 (getDayStart 0) (getDayEnd 0)) * 80 →
        (getEventPosition ⟨"e1", "p-1", 0, 3600000⟩ 80 0).top +
            (getEventPosition ⟨"e1", "p-1", 0, 3600000⟩ 80 0).height ≤ 24 * 80) :=
  getEventPosition_clamped ⟨"e1", "p-1", 0, 3600000⟩ 80 0 (by norm_num)

/-- C7: `eventOverlapsDay` returns true iff
`start < dayEnd(day) ∧ end > dayStart(day)` (with `dayEnd` the
23:59:59.999 boundary), and an event ending exactly at a midnight
boundary does not overlap the day starting there. -/
theorem eventOverlapsDay_spec (s e day : Int) :
    (eventOverlapsDay s e day = true ↔ s < getDayEnd day ∧ getDayStart day < e) ∧
      ∀ next : Int, e = getDayStart next → eventOverlapsDay s e next = false := by
  constructor
  · simp [eventOverlapsDay]
  · intro next hnext
    simp [eventOverlapsDay, hnext]

/-- C7 witness: the event `[0, 86400000)` ending exactly at the midnight
starting day index 1 does not overlap that following day. -/
theorem eventOverlapsDay_spec_witness :
    eventOverlapsDay 0 86400000 86400000 = false :=
  (eventOverlapsDay_spec 0 86400000 86400000).2 86400000 (by decide)

/-- C9: every position returned by `getMultiDayPosition` has width at
least 2 pixels. -/
theorem getMultiDayPosition_width_floor (event : CalendarEvent)
    (weekStartDate : Int) (weekIndex : Nat) (cellWidth : ℚ)
    (pos : EventPosition)
    (h : getMultiDayPosition event weekStartDate weekIndex cellWidth = some pos) :
    2 ≤ pos.width := by
  simp only [getMultiDayPosition] at h
  split at h
  · exact absurd h (by simp)
  · rw [Option.some.injEq] at h
    subst h
    exact le_max_right _ _

theorem getMultiDayPosition_width_floor_witness :
    2 ≤ (EventPosition.mk ⟨"e1", "p-1", 0, 864000000⟩ 0 70 0 0 true false false).width :=
  getMultiDayPosition_width_floor ⟨"e1", "p-1", 0, 864000000⟩ 259200000 0 10
    (EventPosition.mk ⟨"e1", "p-1", 0, 864000000⟩ 0 70 0 0 true false false) (by
      norm_num [getMultiDayPosition, isBeforeDay, isAfterDay, isBetweenDayIncl,
        endOfDay, startOfDay, endOfWeek, dayOfWeek, dayIndexOf, msPerDay])

theorem overlapsJS_comm (a b : CalendarEvent) : overlapsJS a b = overlapsJS b a := by
  unfold overlapsJS
  rcases Decidable.em (b.start < a.stop) with h1 | h1 <;>
    rcases Decidable.em (a.start < b.stop) with h2 | h2 <;>
      simp [h1, h2]

theorem overlapsJS_self (a : CalendarEvent) (h : a.start < a.stop) :
    overlapsJS a a = true := by
  simp [overlapsJS, h]

theorem overlapsJS_iff (a b : CalendarEvent) :
    overlapsJS a b = true ↔ b.start < a.stop ∧ a.start < b.stop := by
  unfold overlapsJS
  constructor
  · intro h
    simp only [Bool.or_eq_true, Bool.and_eq_true, decide_eq_true_eq] at h
    tauto
  · intro h
    simp only [Bool.or_eq_true, Bool.and_eq_true, decide_eq_true_eq]
    tauto

/-- C1 counterexample: for A=[0,10), B=[5,20), C=[15,30) — A∩B, B∩C,
A∌C, with A starting first — the greedy grouping produces TWO groups
`[A,B]` and `[C]` (all three render) and both groups report overflow 0,
not one merged cluster with 2 rendered and 1 overflow. -/
theorem eventGroups_chain_counterexample :
    eventGroups [⟨"a", "p-1", 0, 10⟩, ⟨"b", "p-2", 5, 20⟩, ⟨"c", "p-3", 15, 30⟩] =
        [[⟨"a", "p-1", 0, 10⟩, ⟨"b", "p-2", 5, 20⟩], [⟨"c", "p-3", 15, 30⟩]] ∧
      groupOverflow [⟨"a", "p-1", 0, 10⟩, ⟨"b", "p-2", 5, 20⟩, ⟨"c", "p-3", 15, 30⟩]
          [⟨"a", "p-1", 0, 10⟩, ⟨"b", "p-2", 5, 20⟩] = 0 ∧
      groupOverflow [⟨"a", "p-1", 0, 10⟩, ⟨"b", "p-2", 5, 20⟩, ⟨"c", "p-3", 15, 30⟩]
          [⟨"c", "p-3", 15, 30⟩] = 0 := by
  refine ⟨?_, by decide, by decide⟩
  decide

/-- C1 (amended): for three pairwise-distinct events forming the chain
A∩B, B∩C, A∌C with pairwise distinct start instants, the greedy
grouping merges them into a single cluster (2 rendered, 1 overflow)
exactly when the middle event B starts earliest — it becomes the greedy
pivot and gathers both A and C; when A (respectively C) starts earliest
the pivot only gathers its overlap neighbour B, producing the two groups
{A,B} and {C} (respectively {C,B} and {A}) with all three rendered and
every group's overflow 0. -/
theorem eventGroups_chain_amended (A B C : CalendarEvent)
    (hA : A.start < A.stop) (hB : B.start < B.stop) (hC : C.start < C.stop)
    (hAB : overlapsJS A B = true) (hBC : overlapsJS B C = true)
    (hnAC : overlapsJS A C = false)
    (idAB : A.id ≠ B.id) (idAC : A.id ≠ C.id) (idBC : B.id ≠ C.id) :
    (B.start < A.start → A.start < C.start →
      eventGroups [A, B, C] = [[B, A]] ∧ groupOverflow [A, B, C] [B, A] = 1) ∧
      (B.start < C.start → C.start < A.start →
        eventGroups [A, B, C] = [[B, C]] ∧ groupOverflow [A, B, C] [B, C] = 1) ∧
      (A.start < B.start →
        eventGroups [A, B, C] = [[A, B], [C]] ∧
          groupOverflow [A, B, C] [A, B] = 0 ∧ groupOverflow [A, B, C] [C] = 0) ∧
      (C.start < B.start →
        eventGroups [A, B, C] = [[C, B], [A]] ∧
          groupOverflow [A, B, C] [C, B] = 0 ∧ groupOverflow [A, B, C] [A] = 0) := by
  obtain ⟨hAB1, hAB2⟩ := (overlapsJS_iff A B).mp hAB
  obtain ⟨hBC1, hBC2⟩ := (overlapsJS_iff B C).mp hBC
  have hnAC2 : ¬ (C.start < A.stop ∧ A.start < C.stop) := by
    intro hc
    have h2 := (overlapsJS_iff A C).mpr hc
    rw [h2] at hnAC
    simp at hnAC
  have hAA : overlapsJS A A = true := overlapsJS_self A hA
  have hBB : overlapsJS B B = true := overlapsJS_self B hB
  have hCC : overlapsJS C C = true := overlapsJS_self C hC
  have hBA : overlapsJS B A = true := by rw [overlapsJS_comm]; exact hAB
  have hCB : overlapsJS C B = true := by rw [overlapsJS_comm]; exact hBC
  have hCA : overlapsJS C A = false := by rw [overlapsJS_comm]; exact hnAC
  refine ⟨?_, ?_, ?_, ?_⟩
  · -- B earliest, then A, then C: one merged cluster [B, A]
    intro hordBA hordAC
    constructor
    · have hsort : sortByStart [A, B, C] = [B, A, C] := by
        simp [sortByStart, List.insertionSort, List.orderedInsert,
          not_le.mpr hordBA, hordAC.le, (hordBA.trans hordAC).le]
      unfold eventGroups
      rw [hsort]
      simp [eventGroupsLoop, List.filter, hBB, hBA, hBC, MAX_EVENTS_PER_SLOT]
    · have hdef : groupOverflow [A, B, C] [B, A] =
          if ([B, A] : List CalendarEvent).length = MAX_EVENTS_PER_SLOT then
            (([A, B, C].filter (fun e =>
                (e.start < B.stop && B.start < e.stop) ||
                  (B.start < e.stop && e.start < B.stop))).length : Int)
              - (MAX_EVENTS_PER_SLOT : Int)
          else 0 := rfl
      have hfil : [A, B, C].filter (fun e =>
          (e.start < B.stop && B.start < e.stop) ||
            (B.start < e.stop && e.start < B.stop)) = [A, B, C] := by
        simp [List.filter, hAB1, hAB2, hB, hBC1, hBC2]
      rw [hdef, if_pos (by simp [MAX_EVENTS_PER_SLOT]), hfil]
      norm_num [MAX_EVENTS_PER_SLOT]
  · -- B earliest, then C, then A: one merged cluster [B, C]
    intro hordBC hordCA
    constructor
    · have hsort : sortByStart [A, B, C] = [B, C, A] := by
        simp [sortByStart, List.insertionSort, List.orderedInsert,
          hordBC.le, not_le.mpr (hordBC.trans hordCA), not_le.mpr hordCA]
      unfold eventGroups
      rw [hsort]
      simp [eventGroupsLoop, List.filter, hBB, hBC, hBA, MAX_EVENTS_PER_SLOT]
    · have hdef : groupOverflow [A, B, C] [B, C] =
          if ([B, C] : List CalendarEvent).length = MAX_EVENTS_PER_SLOT then
            (([A, B, C].filter (fun e =>
                (e.start < B.stop && B.start < e.stop) ||
                  (B.start < e.stop && e.start < B.stop))).length : Int)
              - (MAX_EVENTS_PER_SLOT : Int)
          else 0 := rfl
      have hfil : [A, B, C].filter (fun e =>
          (e.start < B.stop && B.start < e.stop) ||
            (B.start < e.stop && e.start < B.stop)) = [A, B, C] := by
        simp [List.filter, hAB1, hAB2, hB, hBC1, hBC2]
      rw [hdef, if_pos (by simp [MAX_EVENTS_PER_SLOT]), hfil]
      norm_num [MAX_EVENTS_PER_SLOT]
  · -- A earliest: the pivot A only gathers B; groups [A, B] and [C]
    intro hordAB
    have hordBC : B.start < C.start := by
      rcases not_and_or.mp hnAC2 with h | h
      · omega
      · omega
    refine ⟨?_, ?_, ?_⟩
    · have hsort : sortByStart [A, B, C] = [A, B, C] := by
        simp [sortByStart, List.insertionSort, List.orderedInsert,
          hordAB.le, hordBC.le, (hordAB.trans hordBC).le]
      unfold eventGroups
      rw [hsort]
      simp [eventGroupsLoop, List.filter, hAA, hAB, hnAC, hCC,
        MAX_EVENTS_PER_SLOT, idAB, idAC, idBC,
        Ne.symm idAB, Ne.symm idAC, Ne.symm idBC]
    · have hdef : groupOverflow [A, B, C] [A, B] =
          if ([A, B] : List CalendarEvent).length = MAX_EVENTS_PER_SLOT then
            (([A, B, C].filter (fun e =>
                (e.start < A.stop && A.start < e.stop) ||
                  (A.start < e.stop && e.start < A.stop))).length : Int)
              - (MAX_EVENTS_PER_SLOT : Int)
          else 0 := rfl
      have hfil : [A, B, C].filter (fun e =>
          (e.start < A.stop && A.start < e.stop) ||
            (A.start < e.stop && e.start < A.stop)) = [A, B] := by
        have hstopAC : ¬ (C.start < A.stop) := by
          rcases not_and_or.mp hnAC2 with h | h
          · exact h
          · omega
        simp [List.filter, hA, hAB1, hAB2, hstopAC]
      rw [hdef, if_pos (by simp [MAX_EVENTS_PER_SLOT]), hfil]
      norm_num [MAX_EVENTS_PER_SLOT]
    · rfl
  · -- C earliest: the pivot C only gathers B; groups [C, B] and [A]
    intro hordCB
    have hordBA : B.start < A.start := by
      rcases not_and_or.mp hnAC2 with h | h
      · omega
      · omega
    refine ⟨?_, ?_, ?_⟩
    · have hsort : sortByStart [A, B, C] = [C, B, A] := by
        simp [sortByStart, List.insertionSort, List.orderedInsert,
          not_le.mpr hordBA, not_le.mpr (hordCB.trans hordBA), not_le.mpr hordCB,
          hordCB.le]
      unfold eventGroups
      rw [hsort]
      simp [eventGroupsLoop, List.filter, hCC, hCB, hCA, hAA,
        MAX_EVENTS_PER_SLOT, idAB, idAC, idBC,
        Ne.symm idAB, Ne.symm idAC, Ne.symm idBC]
    · have hdef : groupOverflow [A, B, C] [C, B] =
          if ([C, B] : List CalendarEvent).length = MAX_EVENTS_PER_SLOT then
            (([A, B, C].filter (fun e =>
                (e.start < C.stop && C.start < e.stop) ||
                  (C.start < e.stop && e.start < C.stop))).length : Int)
              - (MAX_EVENTS_PER_SLOT : Int)
          else 0 := rfl
      have hfil : [A, B, C].filter (fun e =>
          (e.start < C.stop && C.start < e.stop) ||
            (C.start < e.stop && e.start < C.stop)) = [B, C] := by
        have hstopCA : ¬ (A.start < C.stop) := by
          rcases not_and_or.mp hnAC2 with h | h
          · omega
          · exact h
        simp [List.filter, hstopCA, hBC1, hBC2, hC]
      rw [hdef, if_pos (by simp [MAX_EVENTS_PER_SLOT]), hfil]
      norm_num [MAX_EVENTS_PER_SLOT]
    · rfl

/-- C1 witness: the amended behaviour at B=[0,30), A=[5,10), C=[20,25)
(B earliest: one merged cluster [B, A] with overflow 1). -/
theorem eventGroups_chain_amended_witness :
    eventGroups [⟨"a", "p-1", 5, 10⟩, ⟨"b", "p-2", 0, 30⟩, ⟨"c", "p-3", 20, 25⟩] =
        [[⟨"b", "p-2", 0, 30⟩, ⟨"a", "p-1", 5, 10⟩]] ∧
      groupOverflow [⟨"a", "p-1", 5, 10⟩, ⟨"b", "p-2", 0, 30⟩, ⟨"c", "p-3", 20, 25⟩]
          [⟨"b", "p-2", 0, 30⟩, ⟨"a", "p-1", 5, 10⟩] = 1 :=
  (eventGroups_chain_amended ⟨"a", "p-1", 5, 10⟩ ⟨"b", "p-2", 0, 30⟩
    ⟨"c", "p-3", 20, 25⟩ (by decide) (by decide) (by decide) (by decide)
    (by decide) (by decide) (by decide) (by decide) (by decide)).1
    (by decide) (by decide)

/-! ### Lemmas for the global row assignment (C3, C10) -/

theorem collectUnique_aux_nodup (l : List String) :
    ∀ acc : List String, acc.Nodup →
      (l.foldl (fun acc k => if acc.contains k then acc else acc ++ [k]) acc).Nodup := by
  induction l with
  | nil => intro acc h; exact h
  | cons k rest ih =>
    intro acc h
    simp only [List.foldl_cons]
    by_cases hc : acc.contains k = true
    · rw [if_pos hc]; exact ih acc h
    · rw [if_neg hc]
      apply ih
      have hk : k ∉ acc := fun hm => hc (List.elem_iff.mpr hm)
      simp [List.nodup_append, h, hk]

theorem collectUnique_aux_mem (l : List String) :
    ∀ (acc : List String) (x : String),
      x ∈ l.foldl (fun acc k => if acc.contains k then acc else acc ++ [k]) acc ↔
        x ∈ acc ∨ x ∈ l := by
  induction l with
  | nil => intro acc x; simp
  | cons k rest ih =>
    intro acc x
    simp only [List.foldl_cons]
    by_cases hc : acc.contains k = true
    · rw [if_pos hc, ih]
      have hk : k ∈ acc := List.elem_iff.mp hc
      constructor
      · rintro (h | h)
        · exact Or.inl h
        · exact Or.inr (List.mem_cons_of_mem _ h)
      · rintro (h | h)
        · exact Or.inl h
        · rcases List.mem_cons.mp h with rfl | h
          · exact Or.inl hk
          · exact Or.inr h
    · rw [if_neg hc, ih]
      simp only [List.mem_append, List.mem_singleton, List.mem_cons]
      tauto

theorem collectUnique_nodup (l : List String) : (collectUnique l).Nodup :=
  collectUnique_aux_nodup l [] List.nodup_nil

theorem collectUnique_mem (l : List String) (x : String) :
    x ∈ collectUnique l ↔ x ∈ l := by
  unfold collectUnique
  rw [collectUnique_aux_mem]
  simp

theorem collectUnique_perm (l1 l2 : List String) (h : l1.Perm l2) :
    (collectUnique l1).Perm (collectUnique l2) :=
  (List.perm_ext_iff_of_nodup (collectUnique_nodup l1) (collectUnique_nodup l2)).mpr
    (fun a => by rw [collectUnique_mem, collectUnique_mem]; exact h.mem_iff)

theorem sortStrings_sorted (l : List String) :
    List.Sorted (fun a b : String => a ≤ b) (sortStrings l) :=
  List.sorted_insertionSort _ l

theorem sortStrings_perm (l : List String) : (sortStrings l).Perm l :=
  List.perm_insertionSort _ l

theorem sortStrings_eq_of_perm (l1 l2 : List String) (h : l1.Perm l2) :
    sortStrings l1 = sortStrings l2 :=
  List.eq_of_perm_of_sorted
    ((sortStrings_perm l1).trans (h.trans (sortStrings_perm l2).symm))
    (sortStrings_sorted l1) (sortStrings_sorted l2)

theorem monthGroupKeys_nodup (ps : List EventPosition) : (monthGroupKeys ps).Nodup :=
  ((sortStrings_perm _).nodup_iff).mpr (collectUnique_nodup _)

theorem monthGroupKeys_sorted (ps : List EventPosition) :
    List.Sorted (fun a b : String => a ≤ b) (monthGroupKeys ps) :=
  sortStrings_sorted _

theorem monthGroupKeys_mem (ps : List EventPosition) (k : String) :
    k ∈ monthGroupKeys ps ↔ ∃ p ∈ ps, p.event.eventId = k := by
  unfold monthGroupKeys
  rw [(sortStrings_perm _).mem_iff, collectUnique_mem, List.mem_map]

theorem monthGroupKeys_perm (ps1 ps2 : List EventPosition) (h : ps1.Perm ps2) :
    monthGroupKeys ps1 = monthGroupKeys ps2 :=
  sortStrings_eq_of_perm _ _ (collectUnique_perm _ _ (h.map _))

theorem jsRowLookup_eq_indexOf (keys : List String) (k : String) (h : k ∈ keys) :
    jsRowLookup keys k = keys.indexOf k := by
  unfold jsRowLookup
  rw [List.indexOf_eq_indexOf?]
  cases hidx : keys.indexOf? k with
  | some i => simp
  | none =>
    exact absurd ((List.indexOf?_eq_none_iff.mp hidx) k h (by simp)) (fun hx => hx)

theorem mapPush_mem (k : Nat) (p : EventPosition) :
    ∀ (m : List (Nat × List EventPosition)) (w : Nat) (b : List EventPosition),
      (w, b) ∈ mapPush m k p → ∀ x ∈ b,
        (∃ b0, (w, b0) ∈ m ∧ x ∈ b0) ∨ x = p := by
  intro m
  induction m with
  | nil =>
    intro w b hb x hx
    simp only [mapPush, List.mem_singleton, Prod.mk.injEq] at hb
    obtain ⟨rfl, rfl⟩ := hb
    simp only [List.mem_singleton] at hx
    exact Or.inr hx
  | cons hd tl ih =>
    intro w b hb x hx
    obtain ⟨k0, l0⟩ := hd
    simp only [mapPush] at hb
    by_cases hk : k0 = k
    · rw [if_pos hk] at hb
      rcases List.mem_cons.mp hb with h | h
      · obtain ⟨rfl, rfl⟩ := Prod.mk.injEq .. ▸ h
        rcases List.mem_append.mp hx with h2 | h2
        · exact Or.inl ⟨l0, List.mem_cons_self _ _, h2⟩
        · simp only [List.mem_singleton] at h2
          exact Or.inr h2
      · exact Or.inl ⟨b, List.mem_cons_of_mem _ h, hx⟩
    · rw [if_neg hk] at hb
      rcases List.mem_cons.mp hb with h | h
      · exact Or.inl ⟨b, h ▸ List.mem_cons_self _ _, hx⟩
      · rcases ih w b h x hx with ⟨b0, hb0, hxb0⟩ | h2
        · exact Or.inl ⟨b0, List.mem_cons_of_mem _ hb0, hxb0⟩
        · exact Or.inr h2

theorem mapPush_weekIndex (k : Nat) (p : EventPosition) (hp : p.weekIndex = k) :
    ∀ (m : List (Nat × List EventPosition)),
      (∀ w b, (w, b) ∈ m → ∀ x ∈ b, x.weekIndex = w) →
      ∀ w b, (w, b) ∈ mapPush m k p → ∀ x ∈ b, x.weekIndex = w := by
  intro m
  induction m with
  | nil =>
    intro _ w b hb x hx
    simp only [mapPush, List.mem_singleton, Prod.mk.injEq] at hb
    obtain ⟨rfl, rfl⟩ := hb
    simp only [List.mem_singleton] at hx
    rw [hx, hp]
  | cons hd tl ih =>
    intro hm w b hb x hx
    obtain ⟨k0, l0⟩ := hd
    simp only [mapPush] at hb
    by_cases hk : k0 = k
    · rw [if_pos hk] at hb
      rcases List.mem_cons.mp hb with h | h
      · obtain ⟨rfl, rfl⟩ := Prod.mk.injEq .. ▸ h
        rcases List.mem_append.mp hx with h2 | h2
        · exact hm w l0 (List.mem_cons_self _ _) x h2
        · simp only [List.mem_singleton] at h2
          rw [h2, hp, hk]
      · exact hm w b (List.mem_cons_of_mem _ h) x hx
    · rw [if_neg hk] at hb
      rcases List.mem_cons.mp hb with h | h
      · exact hm w b (h ▸ List.mem_cons_self _ _) x hx
      · exact ih (fun w' b' hb' => hm w' b' (List.mem_cons_of_mem _ hb')) w b h x hx

theorem bucketJoin_mapPush (k : Nat) (p : EventPosition) :
    ∀ m : List (Nat × List EventPosition),
      (bucketJoin (mapPush m k p)).Perm (p :: bucketJoin m) := by
  intro m
  induction m with
  | nil => simp [mapPush, bucketJoin]
  | cons hd tl ih =>
    obtain ⟨k0, l0⟩ := hd
    simp only [mapPush]
    by_cases hk : k0 = k
    · rw [if_pos hk]
      simp only [bucketJoin, List.map_cons, List.flatten_cons]
      rw [List.append_assoc]
      exact List.perm_middle
    · rw [if_neg hk]
      simp only [bucketJoin, List.map_cons, List.flatten_cons]
      exact (ih.append_left l0).trans List.perm_middle

theorem bucketJoin_mem (m : List (Nat × List EventPosition)) (w : Nat)
    (b : List EventPosition) (hb : (w, b) ∈ m) (x : EventPosition) (hx : x ∈ b) :
    x ∈ bucketJoin m := by
  unfold bucketJoin
  rw [List.mem_flatten]
  exact ⟨b, List.mem_map.mpr ⟨(w, b), hb, rfl⟩, hx⟩

theorem assignFold_join (keys : List String) (mvr : Nat) :
    ∀ (l : List EventPosition) (m0 : List (Nat × List EventPosition)),
      (bucketJoin (l.foldl
          (fun g pos => mapPush g pos.weekIndex (updatePos keys mvr pos)) m0)).Perm
        (bucketJoin m0 ++ l.map (updatePos keys mvr)) := by
  intro l
  induction l with
  | nil => intro m0; simp
  | cons pos rest ih =>
    intro m0
    simp only [List.foldl_cons, List.map_cons]
    refine (ih _).trans ?_
    refine ((bucketJoin_mapPush _ _ m0).append_right _).trans ?_
    exact List.Perm.symm List.perm_middle

theorem assignFold_weekIndex (keys : List String) (mvr : Nat) :
    ∀ (l : List EventPosition) (m0 : List (Nat × List EventPosition)),
      (∀ w b, (w, b) ∈ m0 → ∀ x ∈ b, x.weekIndex = w) →
      ∀ w b, (w, b) ∈ l.foldl
          (fun g pos => mapPush g pos.weekIndex (updatePos keys mvr pos)) m0 →
        ∀ x ∈ b, x.weekIndex = w := by
  intro l
  induction l with
  | nil => intro m0 hm0; exact hm0
  | cons pos rest ih =>
    intro m0 hm0
    simp only [List.foldl_cons]
    exact ih _ (mapPush_weekIndex pos.weekIndex (updatePos keys mvr pos) rfl m0 hm0)

/-- C3: `assignGlobalRows` gives every position the row equal to the
index of its group key in the lexicographically sorted list of the
distinct group keys of all weeks; positions sharing a group key share a
row (also across relayouts of a permuted input), and the sorted key list
is permutation-invariant. -/
theorem assignGlobalRows_sorted_rows (positions positions' : List EventPosition)
    (maxVisibleRows : Nat) (hperm : positions.Perm positions') :
    List.Sorted (fun a b : String => a ≤ b) (monthGroupKeys positions) ∧
      (monthGroupKeys positions).Nodup ∧
      (∀ k, k ∈ monthGroupKeys positions ↔ ∃ p ∈ positions, p.event.eventId = k) ∧
      (∀ w b, (w, b) ∈ assignGlobalRows positions maxVisibleRows → ∀ p ∈ b,
        p.row = (monthGroupKeys positions).indexOf p.event.eventId) ∧
      monthGroupKeys positions = monthGroupKeys positions' ∧
      (∀ w w' b b' p p',
        (w, b) ∈ assignGlobalRows positions maxVisibleRows →
        (w', b') ∈ assignGlobalRows positions' maxVisibleRows →
        p ∈ b → p' ∈ b' → p.event.eventId = p'.event.eventId →
        p.row = p'.row) := by
  have hrow : ∀ (ps : List EventPosition) (w : Nat) (b : List EventPosition),
      (w, b) ∈ assignGlobalRows ps maxVisibleRows → ∀ p ∈ b,
        p.row = (monthGroupKeys ps).indexOf p.event.eventId := by
    intro ps w b hb p hp
    have hmem : p ∈ bucketJoin (assignGlobalRows ps maxVisibleRows) :=
      bucketJoin_mem _ w b hb p hp
    have hjoin := assignFold_join (monthGroupKeys ps) maxVisibleRows ps []
    have hmem2 : p ∈ bucketJoin ([] : List (Nat × List EventPosition)) ++
        ps.map (updatePos (monthGroupKeys ps) maxVisibleRows) := hjoin.subset hmem
    simp only [bucketJoin, List.map_nil, List.flatten_nil, List.nil_append,
      List.mem_map] at hmem2
    obtain ⟨q, hq, rfl⟩ := hmem2
    show jsRowLookup (monthGroupKeys ps) q.event.eventId =
      (monthGroupKeys ps).indexOf q.event.eventId
    exact jsRowLookup_eq_indexOf _ _ ((monthGroupKeys_mem ps _).mpr ⟨q, hq, rfl⟩)
  refine ⟨monthGroupKeys_sorted _, monthGroupKeys_nodup _, monthGroupKeys_mem _,
    hrow positions, monthGroupKeys_perm _ _ hperm, ?_⟩
  intro w w' b b' p p' h1 h2 hp hp' hkey
  rw [hrow positions w b h1 p hp, hrow positions' w' b' h2 p' hp',
    monthGroupKeys_perm _ _ hperm, hkey]

/-- C3 witness: a two-position, one-key layout and its reversal. -/
theorem assignGlobalRows_sorted_rows_witness :
    monthGroupKeys
        [⟨⟨"x", "entity-2", 0, 10⟩, 0, 2, 0, 0, true, true, true⟩,
         ⟨⟨"y", "entity-2", 5, 15⟩, 1, 3, 0, 0, true, true, true⟩] =
      monthGroupKeys
        [⟨⟨"y", "entity-2", 5, 15⟩, 1, 3, 0, 0, true, true, true⟩,
         ⟨⟨"x", "entity-2", 0, 10⟩, 0, 2, 0, 0, true, true, true⟩] :=
  (assignGlobalRows_sorted_rows _ _ 3
    (List.Perm.swap _ _ [])).2.2.2.2.1

/-- C10: `assignGlobalRows` only recomputes `row` and `isVisible`: the
grouped output is a permutation of the per-position updates of the
input (one output per input), every position is stored under its own
`weekIndex`, and the update leaves `event`, `left`, `width`,
`weekIndex`, `isFirstWeek` and `isLastWeek` unchanged. -/
theorem assignGlobalRows_frame (positions : List EventPosition) (maxVisibleRows : Nat) :
    (bucketJoin (assignGlobalRows positions maxVisibleRows)).Perm
        (positions.map (updatePos (monthGroupKeys positions) maxVisibleRows)) ∧
      (∀ w b, (w, b) ∈ assignGlobalRows positions maxVisibleRows → ∀ p ∈ b,
        p.weekIndex = w) ∧
      ∀ q : EventPosition,
        (updatePos (monthGroupKeys positions) maxVisibleRows q).event = q.event ∧
          (updatePos (monthGroupKeys positions) maxVisibleRows q).left = q.left ∧
          (updatePos (monthGroupKeys positions) maxVisibleRows q).width = q.width ∧
          (updatePos (monthGroupKeys positions) maxVisibleRows q).weekIndex = q.weekIndex ∧
          (updatePos (monthGroupKeys positions) maxVisibleRows q).isFirstWeek = q.isFirstWeek ∧
          (updatePos (monthGroupKeys positions) maxVisibleRows q).isLastWeek = q.isLastWeek := by
  refine ⟨?_, ?_, ?_⟩
  · have h := assignFold_join (monthGroupKeys positions) maxVisibleRows positions []
    simpa [bucketJoin] using h
  · exact assignFold_weekIndex _ _ positions [] (by simp)
  · intro q
    exact ⟨rfl, rfl, rfl, rfl, rfl, rfl⟩

/-- C5: `getMultiDayPosition` returns `none` iff the event misses the
week's 7-day range at day granularity (ends before the week's first day
or starts after its last), for any week-aligned `weekStartDate`
(`dayOfWeek weekStartDate = 0`); whenever the event touches the week a
position is returned. -/
theorem getMultiDayPosition_coverage (event : CalendarEvent) (weekStartDate : Int)
    (weekIndex : Nat) (cellWidth : ℚ) (hweek : dayOfWeek weekStartDate = 0) :
    getMultiDayPosition event weekStartDate weekIndex cellWidth = none ↔
      dayIndexOf event.stop < dayIndexOf weekStartDate ∨
        dayIndexOf weekStartDate + 6 < dayIndexOf event.start := by
  have hcond : (isBeforeDay event.stop weekStartDate ||
      isAfterDay event.start (endOfWeek weekStartDate)) = true ↔
      (dayIndexOf event.stop < dayIndexOf weekStartDate ∨
        dayIndexOf weekStartDate + 6 < dayIndexOf event.start) := by
    have q1 : 86400000 * Int.ediv event.stop 86400000 +
        Int.emod event.stop 86400000 = event.stop := Int.ediv_add_emod _ _
    have q2 : 86400000 * Int.ediv weekStartDate 86400000 +
        Int.emod weekStartDate 86400000 = weekStartDate := Int.ediv_add_emod _ _
    have q3 : 86400000 * Int.ediv event.start 86400000 +
        Int.emod event.start 86400000 = event.start := Int.ediv_add_emod _ _
    have r1 : 0 ≤ Int.emod event.stop 86400000 := Int.emod_nonneg _ (by norm_num)
    have r2 : Int.emod event.stop 86400000 < 86400000 :=
      Int.emod_lt_of_pos _ (by norm_num)
    have r3 : 0 ≤ Int.emod weekStartDate 86400000 := Int.emod_nonneg _ (by norm_num)
    have r4 : Int.emod weekStartDate 86400000 < 86400000 :=
      Int.emod_lt_of_pos _ (by norm_num)
    have r5 : 0 ≤ Int.emod event.start 86400000 := Int.emod_nonneg _ (by norm_num)
    have r6 : Int.emod event.start 86400000 < 86400000 :=
      Int.emod_lt_of_pos _ (by norm_num)
    simp only [dayOfWeek, dayIndexOf, msPerDay] at hweek
    simp only [isBeforeDay, isAfterDay, endOfDay, startOfDay, endOfWeek, dayOfWeek,
      dayIndexOf, msPerDay, Bool.or_eq_true, decide_eq_true_eq, hweek]
    omega
  have hiff2 : getMultiDayPosition event weekStartDate weekIndex cellWidth = none ↔
      (isBeforeDay event.stop weekStartDate ||
        isAfterDay event.start (endOfWeek weekStartDate)) = true := by
    cases hbp : (isBeforeDay event.stop weekStartDate ||
        isAfterDay event.start (endOfWeek weekStartDate)) with
    | true => simp [getMultiDayPosition, hbp]
    | false => simp [getMultiDayPosition, hbp]
  rw [hiff2, hcond]

/-- C5 witness: an event ending on day 0 misses the Sunday-aligned week
starting at day 3, so `getMultiDayPosition` returns `none`. -/
theorem getMultiDayPosition_coverage_witness :
    getMultiDayPosition ⟨"e1", "p-1", 0, 100⟩ 259200000 0 10 = none :=
  (getMultiDayPosition_coverage ⟨"e1", "p-1", 0, 100⟩ 259200000 0 10
    (by decide)).mpr (Or.inl (by decide))

/-! ### Lemmas for property-presence segmentation and rows (C8) -/

theorem segmentsLoop_spec (nm pid col : String) (full : List Int) :
    ∀ (rest : List Int) (ss ee : Int),
      ss ≤ ee →
      (∀ d, ss ≤ d → d ≤ ee → d ∈ full) →
      (ss - 1) ∉ full →
      List.Pairwise (fun a b : Int => a < b) rest →
      (∀ d ∈ rest, ee < d) →
      (∀ d ∈ full, d ≤ ee ∨ d ∈ rest) →
      (∀ d ∈ rest, d ∈ full) →
      ∀ x, x ∈ segmentsLoop nm pid col ss ee rest ↔
        ∃ s e : Int, x = ⟨nm, pid, s, e, col⟩ ∧
          ((s = ss ∧ ee ≤ e) ∨ ee + 1 < s) ∧
          s ≤ e ∧ (∀ d, s ≤ d → d ≤ e → d ∈ full) ∧
          (s - 1) ∉ full ∧ (e + 1) ∉ full := by
  intro rest
  induction rest with
  | nil =>
    intro ss ee hle hcov hleft _ _ hionly _ x
    simp only [segmentsLoop, List.mem_singleton]
    constructor
    · rintro rfl
      refine ⟨ss, ee, rfl, Or.inl ⟨rfl, le_refl _⟩, hle, hcov, hleft, ?_⟩
      intro hmem
      rcases hionly _ hmem with h | h
      · omega
      · exact List.not_mem_nil _ h
    · rintro ⟨s, e, rfl, hcase, hse, hcov2, hl2, hr2⟩
      rcases hcase with ⟨rfl, hee⟩ | hgt
      · have he : e = ee := by
          by_contra hne
          have h1 : ee + 1 ∈ full := hcov2 (ee + 1) (by omega) (by omega)
          rcases hionly _ h1 with h | h
          · omega
          · exact List.not_mem_nil _ h
        rw [he]
      · exfalso
        have hs : s ∈ full := hcov2 s (le_refl _) hse
        rcases hionly _ hs with h | h
        · omega
        · exact List.not_mem_nil _ h
  | cons d rest2 ih =>
    intro ss ee hle hcov hleft hpair hgt hionly hsub x
    have hdee : ee < d := hgt d (List.mem_cons_self _ _)
    have hdfull : d ∈ full := hsub d (List.mem_cons_self _ _)
    obtain ⟨hdlt, hpair2⟩ := List.pairwise_cons.mp hpair
    by_cases hd : d = ee + 1
    · rw [show segmentsLoop nm pid col ss ee (d :: rest2) =
          if d = ee + 1 then segmentsLoop nm pid col ss d rest2
          else ⟨nm, pid, ss, ee, col⟩ :: segmentsLoop nm pid col d d rest2 from rfl,
        if_pos hd]
      rw [ih ss d (by omega)
        (by intro z h1 h2
            by_cases hz : z ≤ ee
            · exact hcov z h1 hz
            · have : z = d := by omega
              rw [this]; exact hdfull)
        hleft hpair2 hdlt
        (by intro z hz
            rcases hionly z hz with h | h
            · exact Or.inl (by omega)
            · rcases List.mem_cons.mp h with rfl | h2
              · exact Or.inl (le_refl _)
              · exact Or.inr h2)
        (fun z hz => hsub z (List.mem_cons_of_mem _ hz))]
      constructor
      · rintro ⟨s, e, rfl, hcase, hse, hcov2, hl2, hr2⟩
        refine ⟨s, e, rfl, ?_, hse, hcov2, hl2, hr2⟩
        rcases hcase with ⟨rfl, hde⟩ | hgt2
        · exact Or.inl ⟨rfl, by omega⟩
        · exact Or.inr (by omega)
      · rintro ⟨s, e, rfl, hcase, hse, hcov2, hl2, hr2⟩
        refine ⟨s, e, rfl, ?_, hse, hcov2, hl2, hr2⟩
        rcases hcase with ⟨rfl, hee⟩ | hgt2
        · refine Or.inl ⟨rfl, ?_⟩
          by_contra hne
          have he : e = ee := by omega
          exact hr2 (by rw [he, ← hd] at *; exact hdfull)
        · refine Or.inr ?_
          have hne : s ≠ d + 1 := by
            intro hcontr
            apply hl2
            rw [hcontr]
            simpa using hdfull
          omega
    · rw [show segmentsLoop nm pid col ss ee (d :: rest2) =
          if d = ee + 1 then segmentsLoop nm pid col ss d rest2
          else ⟨nm, pid, ss, ee, col⟩ :: segmentsLoop nm pid col d d rest2 from rfl,
        if_neg hd]
      have hd2 : ee + 1 < d := by omega
      rw [List.mem_cons,
        ih d d (le_refl _)
          (by intro z h1 h2
              have : z = d := by omega
              rw [this]; exact hdfull)
          (by intro hmem
              rcases hionly _ hmem with h | h
              · omega
              · rcases List.mem_cons.mp h with h2 | h2
                · omega
                · exact absurd (hdlt _ h2) (by omega))
          hpair2 hdlt
          (by intro z hz
              rcases hionly z hz with h | h
              · exact Or.inl (by omega)
              · rcases List.mem_cons.mp h with rfl | h2
                · exact Or.inl (le_refl _)
                · exact Or.inr h2)
          (fun z hz => hsub z (List.mem_cons_of_mem _ hz))]
      constructor
      · rintro (rfl | ⟨s, e, rfl, hcase, hse, hcov2, hl2, hr2⟩)
        · refine ⟨ss, ee, rfl, Or.inl ⟨rfl, le_refl _⟩, hle, hcov, hleft, ?_⟩
          intro hmem
          rcases hionly _ hmem with h | h
          · omega
          · rcases List.mem_cons.mp h with h2 | h2
            · omega
            · exact absurd (hdlt _ h2) (by omega)
        · refine ⟨s, e, rfl, ?_, hse, hcov2, hl2, hr2⟩
          rcases hcase with ⟨rfl, hde⟩ | hgt2
          · exact Or.inr (by omega)
          · exact Or.inr (by omega)
      · rintro ⟨s, e, rfl, hcase, hse, hcov2, hl2, hr2⟩
        rcases hcase with ⟨rfl, hee⟩ | hgt2
        · left
          have he : e = ee := by
            by_contra hne
            have h1 : ee + 1 ∈ full := hcov2 (ee + 1) (by omega) (by omega)
            rcases hionly _ h1 with h | h
            · omega
            · rcases List.mem_cons.mp h with h2 | h2
              · omega
              · exact absurd (hdlt _ h2) (by omega)
          rw [he]
        · right
          have hs : s ∈ full := hcov2 s (le_refl _) hse
          rcases hionly _ hs with h | h
          · omega
          · rcases List.mem_cons.mp h with h2 | h2
            · exact ⟨s, e, rfl, Or.inl ⟨h2.symm ▸ rfl, by omega⟩, hse, hcov2, hl2, hr2⟩
            · refine ⟨s, e, rfl, Or.inr ?_, hse, hcov2, hl2, hr2⟩
              have hne : s ≠ d + 1 := by
                intro hcontr
                apply hl2
                rw [hcontr]
                simpa using hdfull
              have := hdlt _ h2
              omega

theorem lookupRow_append_of_some (m : List (String × Nat)) (k : String) (r : Nat)
    (h : lookupRow m k = some r) (x : String × Nat) :
    lookupRow (m ++ [x]) k = some r := by
  induction m with
  | nil => simp [lookupRow] at h
  | cons hd tl ih =>
    unfold lookupRow at *
    rw [List.cons_append, List.find?_cons] at *
    split at h
    · simpa using h
    · exact ih h

theorem lookupRow_append_self (m : List (String × Nat)) (k : String) (n : Nat)
    (h : lookupRow m k = none) : lookupRow (m ++ [(k, n)]) k = some n := by
  induction m with
  | nil => simp [lookupRow]
  | cons hd tl ih =>
    unfold lookupRow at *
    rw [List.cons_append, List.find?_cons] at *
    split at h
    · simp at h
    · exact ih h

theorem withRowsLoop_row_of_lookup (k : String) (r : Nat) :
    ∀ (l : List PropertyIndicatorData) (assigned : List (String × Nat)),
      lookupRow assigned k = some r →
      ∀ o ∈ withRowsLoop assigned l, o.ind.propertyId = k → o.row = r := by
  intro l
  induction l with
  | nil =>
    intro assigned _ o ho
    simp [withRowsLoop] at ho
  | cons ind rest ih =>
    intro assigned hlk o ho hk
    have hunfold : withRowsLoop assigned (ind :: rest) =
        ⟨ind, (lookupRow (if (lookupRow assigned ind.propertyId).isSome then assigned
            else assigned ++ [(ind.propertyId, assigned.length)]) ind.propertyId).getD 0⟩ ::
          withRowsLoop (if (lookupRow assigned ind.propertyId).isSome then assigned
            else assigned ++ [(ind.propertyId, assigned.length)]) rest := rfl
    rw [hunfold, List.mem_cons] at ho
    by_cases hps : (lookupRow assigned ind.propertyId).isSome
    · rw [if_pos hps] at ho
      rcases ho with rfl | ho
      · simp only at hk
        rw [hk] at *
        simp [hlk]
      · exact ih assigned hlk o ho hk
    · rw [if_neg hps] at ho
      rcases ho with rfl | ho
      · exfalso
        simp only at hk
        rw [hk] at hps
        exact hps (by simp [hlk])
      · refine ih _ ?_ o ho hk
        exact lookupRow_append_of_some assigned k r hlk _

theorem withRowsLoop_same_rows :
    ∀ (l : List PropertyIndicatorData) (assigned : List (String × Nat)),
      ∀ o1 ∈ withRowsLoop assigned l, ∀ o2 ∈ withRowsLoop assigned l,
        o1.ind.propertyId = o2.ind.propertyId → o1.row = o2.row := by
  intro l
  induction l with
  | nil =>
    intro assigned o1 h1
    simp [withRowsLoop] at h1
  | cons ind rest ih =>
    intro assigned o1 h1 o2 h2 hkey
    by_cases hps : (lookupRow assigned ind.propertyId).isSome
    · have hunfold : withRowsLoop assigned (ind :: rest) =
          ⟨ind, (lookupRow assigned ind.propertyId).getD 0⟩ ::
            withRowsLoop assigned rest := by
        show (⟨ind, (lookupRow (if (lookupRow assigned ind.propertyId).isSome then assigned
            else assigned ++ [(ind.propertyId, assigned.length)]) ind.propertyId).getD 0⟩ ::
          withRowsLoop (if (lookupRow assigned ind.propertyId).isSome then assigned
            else assigned ++ [(ind.propertyId, assigned.length)]) rest : List RowedIndicator) = _
        rw [if_pos hps]
      obtain ⟨r0, hr0⟩ := Option.isSome_iff_exists.mp hps
      rw [hunfold, List.mem_cons] at h1 h2
      rcases h1 with rfl | h1 <;> rcases h2 with rfl | h2
      · rfl
      · have h2r : o2.row = r0 :=
          withRowsLoop_row_of_lookup ind.propertyId r0 rest assigned hr0 o2 h2 hkey.symm
        simp [hr0, h2r]
      · have h1r : o1.row = r0 :=
          withRowsLoop_row_of_lookup ind.propertyId r0 rest assigned hr0 o1 h1 hkey
        simp [hr0, h1r]
      · exact ih assigned o1 h1 o2 h2 hkey
    · have hnone : lookupRow assigned ind.propertyId = none :=
        Option.not_isSome_iff_eq_none.mp hps
      have happ : lookupRow (assigned ++ [(ind.propertyId, assigned.length)])
          ind.propertyId = some assigned.length :=
        lookupRow_append_self assigned ind.propertyId assigned.length hnone
      have hunfold : withRowsLoop assigned (ind :: rest) =
          ⟨ind, assigned.length⟩ ::
            withRowsLoop (assigned ++ [(ind.propertyId, assigned.length)]) rest := by
        show (⟨ind, (lookupRow (if (lookupRow assigned ind.propertyId).isSome then assigned
            else assigned ++ [(ind.propertyId, assigned.length)]) ind.propertyId).getD 0⟩ ::
          withRowsLoop (if (lookupRow assigned ind.propertyId).isSome then assigned
            else assigned ++ [(ind.propertyId, assigned.length)]) rest : List RowedIndicator) = _
        rw [if_neg hps, happ]
        rfl
      rw [hunfold, List.mem_cons] at h1 h2
      rcases h1 with rfl | h1 <;> rcases h2 with rfl | h2
      · rfl
      · exact (withRowsLoop_row_of_lookup ind.propertyId assigned.length rest _
          happ o2 h2 hkey.symm).symm
      · exact withRowsLoop_row_of_lookup ind.propertyId assigned.length rest _
          happ o1 h1 hkey
      · exact ih _ o1 h1 o2 h2 hkey

/-- C8: the produced presence segments are exactly the maximal runs of
consecutive day indices of a (duplicate-free) presence set — e.g.
{0,1,2,5,6} yields exactly [0,2] and [5,6] — and
`getPropertyIndicatorsWithRows` gives all indicators of one property id
the same row. -/
theorem presenceSegments_maximal_runs (nm pid col : String)
    (days : List Int) (hnd : days.Nodup) :
    (∀ x, x ∈ presenceSegments nm pid col days ↔
        ∃ s e : Int, x = ⟨nm, pid, s, e, col⟩ ∧ s ≤ e ∧
          (∀ d, s ≤ d → d ≤ e → d ∈ days) ∧ (s - 1) ∉ days ∧ (e + 1) ∉ days) ∧
      presenceSegments nm pid col [0, 1, 2, 5, 6] =
        [⟨nm, pid, 0, 2, col⟩, ⟨nm, pid, 5, 6, col⟩] ∧
      (∀ (inds : List PropertyIndicatorData) (i j : RowedIndicator),
        i ∈ getPropertyIndicatorsWithRows inds →
        j ∈ getPropertyIndicatorsWithRows inds →
        i.ind.propertyId = j.ind.propertyId → i.row = j.row) := by
  refine ⟨?_, ?_, ?_⟩
  · intro x
    cases hsorted : List.insertionSort (fun a b : Int => a ≤ b) days with
    | nil =>
      have hempty : days = [] :=
        ((hsorted ▸ (List.perm_insertionSort _ days)).symm).eq_nil
      have hps : presenceSegments nm pid col days = [] := by
        unfold presenceSegments
        rw [hsorted]
      rw [hps]
      subst hempty
      constructor
      · intro hx
        exact absurd hx (List.not_mem_nil _)
      · rintro ⟨s, e, rfl, hse, hcov, _, _⟩
        exact absurd (hcov s (le_refl _) hse) (List.not_mem_nil _)
    | cons d0 rest =>
      have hps : presenceSegments nm pid col days =
          segmentsLoop nm pid col d0 d0 rest := by
        unfold presenceSegments
        rw [hsorted]
      have hsortsorted : List.Sorted (fun a b : Int => a ≤ b) (d0 :: rest) := by
        rw [← hsorted]
        exact List.sorted_insertionSort _ _
      have hnodup : (d0 :: rest).Nodup := by
        rw [← hsorted]
        exact ((List.perm_insertionSort _ days).nodup_iff).mpr hnd
      have hstrict : List.Sorted (fun a b : Int => a < b) (d0 :: rest) :=
        List.Sorted.lt_of_le hsortsorted hnodup
      obtain ⟨hd0lt, hstrict2⟩ := List.pairwise_cons.mp hstrict
      have hmemiff : ∀ z : Int, z ∈ (d0 :: rest) ↔ z ∈ days := by
        intro z
        rw [← hsorted]
        simp
      have hd0mem : d0 ∈ days := (hmemiff d0).mp (List.mem_cons_self _ _)
      rw [hps, segmentsLoop_spec nm pid col days rest d0 d0 (le_refl _)
        (by intro z h1 h2
            have hz : z = d0 := le_antisymm h2 h1
            rw [hz]; exact hd0mem)
        (by intro hmem
            rcases List.mem_cons.mp ((hmemiff _).mpr hmem) with h | h
            · omega
            · exact absurd (hd0lt _ h) (by omega))
        hstrict2 hd0lt
        (by intro z hz
            rcases List.mem_cons.mp ((hmemiff _).mpr hz) with h | h
            · exact Or.inl (le_of_eq h)
            · exact Or.inr h)
        (fun z hz => (hmemiff z).mp (List.mem_cons_of_mem _ hz)) x]
      constructor
      · rintro ⟨s, e, rfl, _, hse, hcov2, hl2, hr2⟩
        exact ⟨s, e, rfl, hse, hcov2, hl2, hr2⟩
      · rintro ⟨s, e, rfl, hse, hcov2, hl2, hr2⟩
        refine ⟨s, e, rfl, ?_, hse, hcov2, hl2, hr2⟩
        rcases List.mem_cons.mp ((hmemiff s).mpr (hcov2 s (le_refl _) hse)) with h | h
        · exact Or.inl ⟨h, h ▸ hse⟩
        · have hlt : d0 < s := hd0lt _ h
          have hne : s ≠ d0 + 1 := by
            intro hcontr
            apply hl2
            rw [hcontr]
            simpa using hd0mem
          exact Or.inr (by omega)
  · rfl
  · intro inds i j hi hj hk
    exact withRowsLoop_same_rows inds [] i hi j hj hk

/-- C8 witness: the presence set {0,1,2,5,6} of one property id yields
exactly the two segments [0,2] and [5,6]. -/
theorem presenceSegments_maximal_runs_witness :
    presenceSegments "Property 1" "1" "#aabbcc" [0, 1, 2, 5, 6] =
      [⟨"Property 1", "1", 0, 2, "#aabbcc"⟩, ⟨"Property 1", "1", 5, 6, "#aabbcc"⟩] :=
  (presenceSegments_maximal_runs "Property 1" "1" "#aabbcc" [0, 1, 2, 5, 6]
    (by decide)).2.1

/-! ### Lemmas for the day-overflow sweep (C6) -/

theorem foldr_max_init_swap (L : List Int) (a b : Int) :
    L.foldr max (max a b) = max b (L.foldr max a) := by
  induction L with
  | nil => exact max_comm a b
  | cons x L ih =>
    simp only [List.foldr_cons, ih]
    rw [max_left_comm]

theorem le_foldr_max (L : List Int) (m : Int) : m ≤ L.foldr max m := by
  induction L with
  | nil => exact le_refl m
  | cons x L ih => exact ih.trans (le_max_right x _)

theorem mem_le_foldr_max (L : List Int) (m x : Int) (hx : x ∈ L) :
    x ≤ L.foldr max m := by
  induction L with
  | nil => cases hx
  | cons y L ih =>
    rcases List.mem_cons.mp hx with rfl | hx2
    · exact le_max_left _ _
    · exact (ih hx2).trans (le_max_right y _)

theorem foldr_max_le (L : List Int) (m b : Int) (hm : m ≤ b)
    (h : ∀ x ∈ L, x ≤ b) : L.foldr max m ≤ b := by
  induction L with
  | nil => exact hm
  | cons x L ih =>
    simp only [List.foldr_cons]
    exact max_le (h x (List.mem_cons_self _ _))
      (ih (fun y hy => h y (List.mem_cons_of_mem _ hy)))

theorem foldr_max_cast_le (L : List Nat) (b : Nat) (V : Int)
    (hb : (b : Int) ≤ V) (h : ∀ x ∈ L, (x : Int) ≤ V) :
    ((L.foldr max b : Nat) : Int) ≤ V := by
  induction L with
  | nil => exact hb
  | cons x L ih =>
    simp only [List.foldr_cons, Nat.cast_max]
    exact max_le (h x (List.mem_cons_self _ _))
      (ih (fun y hy => h y (List.mem_cons_of_mem _ hy)))

theorem ptLE_refl (p : Int × Int) : ptLE p p := Or.inr ⟨rfl, le_refl _⟩

theorem sumLE_cons (a : Int × Int) (l : List (Int × Int)) (p : Int × Int) :
    sumLE (a :: l) p = (if ptLE a p then a.2 else 0) + sumLE l p := by
  unfold sumLE
  rw [List.filter_cons]
  by_cases hap : ptLE a p
  · rw [if_pos (by simpa using hap), if_pos hap, List.map_cons, List.sum_cons]
  · rw [if_neg (by simpa using hap), if_neg hap, zero_add]

theorem sumLE_perm (l1 l2 : List (Int × Int)) (h : l1.Perm l2) (p : Int × Int) :
    sumLE l1 p = sumLE l2 p :=
  List.Perm.sum_eq ((h.filter _).map _)

theorem ite_max (m c : Int) : (if m < c then c else m) = max m c := by
  rcases le_or_lt c m with h | h
  · rw [if_neg (not_lt.mpr h), max_eq_left h]
  · rw [if_pos h, max_eq_right h.le]

/-- The sweep over a sorted point list computes the maximum, over all cut
points, of the initial value plus the sum of the deltas up to the cut. -/
theorem sweepAux_sorted :
    ∀ l : List (Int × Int), List.Pairwise ptLE l →
      ∀ c m : Int, c ≤ m →
        sweepAux c m l = (l.map (fun p => c + sumLE l p)).foldr max m := by
  intro l
  induction l with
  | nil => intro _ c m _; rfl
  | cons x xs ih =>
    intro hs c m hcm
    obtain ⟨hxle, hxs⟩ := List.pairwise_cons.mp hs
    have hstep : sweepAux c m (x :: xs) = sweepAux (c + x.2) (max m (c + x.2)) xs := by
      show sweepAux (c + x.2) (if m < c + x.2 then c + x.2 else m) xs = _
      rw [ite_max]
    rw [hstep, ih hxs (c + x.2) (max m (c + x.2)) (le_max_right _ _)]
    have hcongr : xs.map (fun p => (c + x.2) + sumLE xs p) =
        xs.map (fun p => c + sumLE (x :: xs) p) := by
      apply List.map_congr_left
      intro p hp
      rw [sumLE_cons, if_pos (hxle p hp)]
      ring
    have hhead : c + sumLE (x :: xs) x = c + x.2 + sumLE xs x := by
      rw [sumLE_cons, if_pos (ptLE_refl x)]
      ring
    rw [List.map_cons, List.foldr_cons, hhead, ← hcongr, foldr_max_init_swap]
    set F := (xs.map (fun p => (c + x.2) + sumLE xs p)).foldr max m with hF
    set s := sumLE xs x with hsdef
    -- all points of xs counted in s equal x
    have hall : ∀ q ∈ xs.filter (fun q => decide (ptLE q x)), q = x := by
      intro q hq
      obtain ⟨hqxs, hqle⟩ := List.mem_filter.mp hq
      exact antisymm (of_decide_eq_true hqle) (hxle q hqxs)
    cases hfe : xs.filter (fun q => decide (ptLE q x)) with
    | nil =>
      have hs0 : s = 0 := by
        rw [hsdef]
        unfold sumLE
        rw [hfe]
        rfl
      rw [hs0, add_zero]
    | cons q0 qs =>
      have hxmem : x ∈ xs := by
        have hq0 : q0 ∈ xs.filter (fun q => decide (ptLE q x)) := by
          rw [hfe]; exact List.mem_cons_self _ _
        have : q0 = x := hall q0 hq0
        rw [← this]
        exact (List.mem_filter.mp hq0).1
      have hb : c + x.2 + s ≤ F := by
        apply mem_le_foldr_max
        exact List.mem_map.mpr ⟨x, hxmem, rfl⟩
      have hsx : s = ((qs.length + 1 : Nat) : Int) * x.2 := by
        have hmapall : ∀ b ∈ (xs.filter (fun q => decide (ptLE q x))).map
            (fun q => q.2), b = x.2 := by
          intro b hb2
          obtain ⟨q, hq, rfl⟩ := List.mem_map.mp hb2
          rw [hall q hq]
        have hrepl := List.eq_replicate_of_mem hmapall
        rw [hsdef]
        unfold sumLE
        rw [hrepl, List.sum_replicate, List.length_map, hfe, List.length_cons,
          nsmul_eq_mul]
      have ha : c + x.2 ≤ F := by
        rcases le_or_lt 0 s with hspos | hsneg
        · linarith
        · have hx2neg : x.2 < 0 := by
            by_contra hx2
            push_neg at hx2
            have : 0 ≤ s := by
              rw [hsx]
              positivity
            omega
          have : m ≤ F := le_foldr_max _ _
          linarith
      rw [max_eq_right ha, max_eq_right hb]

theorem mem_pointsOf (events : List CalendarEvent) (p : Int × Int) :
    p ∈ pointsOf events ↔ ∃ e ∈ events, p = (e.start, 1) ∨ p = (e.stop, -1) := by
  induction events with
  | nil => simp [pointsOf]
  | cons e es ih =>
    rw [show pointsOf (e :: es) = (e.start, 1) :: (e.stop, -1) :: pointsOf es from rfl]
    simp only [List.mem_cons, ih, List.mem_cons]
    constructor
    · rintro (rfl | rfl | ⟨f, hf, hor⟩)
      · exact ⟨e, Or.inl rfl, Or.inl rfl⟩
      · exact ⟨e, Or.inl rfl, Or.inr rfl⟩
      · exact ⟨f, Or.inr hf, hor⟩
    · rintro ⟨f, rfl | hf, hor⟩
      · rcases hor with rfl | rfl
        · exact Or.inl rfl
        · exact Or.inr (Or.inl rfl)
      · exact Or.inr (Or.inr ⟨f, hf, hor⟩)

theorem sumLE_points_start (events : List CalendarEvent) (t : Int) :
    sumLE (pointsOf events) (t, 1) =
      (events.countP (fun e => e.start ≤ t) : Int) -
        (events.countP (fun e => e.stop ≤ t) : Int) := by
  induction events with
  | nil => simp [sumLE, pointsOf]
  | cons e es ih =>
    rw [show pointsOf (e :: es) = (e.start, 1) :: (e.stop, -1) :: pointsOf es from rfl,
      sumLE_cons, sumLE_cons, ih, List.countP_cons, List.countP_cons]
    have h1 : ptLE (e.start, 1) (t, 1) ↔ e.start ≤ t := by
      unfold ptLE; simp; try omega
    have h2 : ptLE (e.stop, -1) (t, 1) ↔ e.stop ≤ t := by
      unfold ptLE; simp; try omega
    by_cases hc1 : e.start ≤ t <;> by_cases hc2 : e.stop ≤ t <;>
      simp [h1, h2, hc1, hc2] <;> omega

theorem sumLE_points_stop (events : List CalendarEvent) (t : Int) :
    sumLE (pointsOf events) (t, -1) =
      (events.countP (fun e => e.start < t) : Int) -
        (events.countP (fun e => e.stop ≤ t) : Int) := by
  induction events with
  | nil => simp [sumLE, pointsOf]
  | cons e es ih =>
    rw [show pointsOf (e :: es) = (e.start, 1) :: (e.stop, -1) :: pointsOf es from rfl,
      sumLE_cons, sumLE_cons, ih, List.countP_cons, List.countP_cons]
    have h1 : ptLE (e.start, 1) (t, -1) ↔ e.start < t := by
      unfold ptLE; simp; try omega
    have h2 : ptLE (e.stop, -1) (t, -1) ↔ e.stop ≤ t := by
      unfold ptLE; simp; try omega
    by_cases hc1 : e.start < t <;> by_cases hc2 : e.stop ≤ t <;>
      simp [h1, h2, hc1, hc2] <;> omega

theorem countOpen_eq (events : List CalendarEvent) (t : Int)
    (h : ∀ e ∈ events, e.start < e.stop) :
    (events.countP (fun e => e.start ≤ t) : Int) -
        (events.countP (fun e => e.stop ≤ t) : Int) =
      (countOpenAt events t : Int) := by
  induction events with
  | nil => simp [countOpenAt]
  | cons e es ih =>
    have he := h e (List.mem_cons_self _ _)
    have ihs := ih (fun f hf => h f (List.mem_cons_of_mem _ hf))
    simp only [countOpenAt, List.countP_cons] at *
    simp only [Bool.and_eq_true, decide_eq_true_eq]
    split_ifs <;> push_cast <;> omega

theorem mem_le_foldr_max_nat (L : List Nat) (m x : Nat) (hx : x ∈ L) :
    x ≤ L.foldr max m := by
  induction L with
  | nil => cases hx
  | cons y L ih =>
    rcases List.mem_cons.mp hx with rfl | hx2
    · exact le_max_left _ _
    · exact (ih hx2).trans (le_max_right y _)

theorem exists_max_start (l : List CalendarEvent) (hne : l ≠ []) :
    ∃ e ∈ l, ∀ f ∈ l, f.start ≤ e.start := by
  induction l with
  | nil => exact absurd rfl hne
  | cons a as ih =>
    cases as with
    | nil =>
      refine ⟨a, List.mem_cons_self _ _, ?_⟩
      intro f hf
      rcases List.mem_cons.mp hf with rfl | hf2
      · exact le_refl _
      · cases hf2
    | cons b bs =>
      obtain ⟨e0, he0, hmax⟩ := ih (by simp)
      rcases le_total a.start e0.start with hc | hc
      · refine ⟨e0, List.mem_cons_of_mem _ he0, ?_⟩
        intro f hf
        rcases List.mem_cons.mp hf with rfl | hf2
        · exact hc
        · exact hmax f hf2
      · refine ⟨a, List.mem_cons_self _ _, ?_⟩
        intro f hf
        rcases List.mem_cons.mp hf with rfl | hf2
        · exact le_refl _
        · exact (hmax f hf2).trans hc

theorem countOpenAt_le_maxConcurrency (events : List CalendarEvent) (t : Int) :
    countOpenAt events t ≤ maxConcurrency events := by
  cases hfil : events.filter (fun e => e.start ≤ t && t < e.stop) with
  | nil =>
    have h0 : countOpenAt events t = 0 := by
      unfold countOpenAt
      rw [List.countP_eq_length_filter, hfil]
      rfl
    rw [h0]
    exact Nat.zero_le _
  | cons f fs =>
    obtain ⟨estar, hestar, hmax⟩ :=
      exists_max_start (events.filter (fun e => e.start ≤ t && t < e.stop))
        (by rw [hfil]; simp)
    obtain ⟨hesmem, hespred⟩ := List.mem_filter.mp hestar
    simp only [Bool.and_eq_true, decide_eq_true_eq] at hespred
    have hsub : countOpenAt events t ≤ countOpenAt events estar.start := by
      apply List.countP_mono_left
      intro e he hpred
      simp only [Bool.and_eq_true, decide_eq_true_eq] at hpred ⊢
      have hein : e ∈ events.filter (fun e => e.start ≤ t && t < e.stop) :=
        List.mem_filter.mpr ⟨he, by simp [hpred]⟩
      exact ⟨hmax e hein, lt_of_le_of_lt hespred.1 hpred.2⟩
    refine hsub.trans ?_
    unfold maxConcurrency
    exact mem_le_foldr_max_nat _ 0 _ (List.mem_map.mpr ⟨estar, hesmem, rfl⟩)

/-- C6: `calculateDayOverflow` equals `max(0, maxConcurrency − 2)` where
`maxConcurrency` is the maximum number of simultaneously open intervals
(half-open semantics, as realised by the sweep's end-before-start
tie-break), for well-formed events (`start < end`); the empty list
yields 0. -/
theorem calculateDayOverflow_spec (events : List CalendarEvent)
    (h : ∀ e ∈ events, e.start < e.stop) :
    calculateDayOverflow events = max 0 ((maxConcurrency events : Int) - 2) ∧
      calculateDayOverflow [] = 0 := by
  refine ⟨?_, rfl⟩
  unfold calculateDayOverflow
  cases events with
  | nil =>
    rw [if_pos (by rfl)]
    simp [maxConcurrency]
  | cons e0 es =>
    rw [if_neg (by simp)]
    have hperm : (sortPoints (pointsOf (e0 :: es))).Perm (pointsOf (e0 :: es)) :=
      List.perm_insertionSort _ _
    have hsorted : List.Pairwise ptLE (sortPoints (pointsOf (e0 :: es))) :=
      List.sorted_insertionSort _ _
    have hsweep := sweepAux_sorted _ hsorted 0 0 (le_refl 0)
    have hzero : (sortPoints (pointsOf (e0 :: es))).map
        (fun p => 0 + sumLE (sortPoints (pointsOf (e0 :: es))) p) =
        (sortPoints (pointsOf (e0 :: es))).map
          (fun p => sumLE (pointsOf (e0 :: es)) p) := by
      apply List.map_congr_left
      intro p hp
      rw [zero_add, sumLE_perm _ _ hperm]
    rw [hsweep, hzero]
    have hmaineq : List.foldr max 0 ((sortPoints (pointsOf (e0 :: es))).map
        (fun p => sumLE (pointsOf (e0 :: es)) p)) =
        (maxConcurrency (e0 :: es) : Int) := by
      apply le_antisymm
      · apply foldr_max_le
        · exact_mod_cast Nat.zero_le _
        · intro x hx
          obtain ⟨p, hpS, rfl⟩ := List.mem_map.mp hx
          have hpPoints : p ∈ pointsOf (e0 :: es) := hperm.subset hpS
          obtain ⟨e, he, hor⟩ := (mem_pointsOf _ p).mp hpPoints
          rcases hor with rfl | rfl
          · rw [sumLE_points_start, countOpen_eq _ _ h]
            exact_mod_cast countOpenAt_le_maxConcurrency (e0 :: es) e.start
          · rw [sumLE_points_stop]
            have hmono : ((e0 :: es).countP (fun f => f.start < e.stop) : Int) ≤
                ((e0 :: es).countP (fun f => f.start ≤ e.stop) : Int) := by
              exact_mod_cast List.countP_mono_left (fun f _ hf => by
                simp only [decide_eq_true_eq] at hf ⊢
                exact hf.le)
            have hco := countOpen_eq (e0 :: es) e.stop h
            have hle2 : (countOpenAt (e0 :: es) e.stop : Int) ≤
                (maxConcurrency (e0 :: es) : Int) := by
              exact_mod_cast countOpenAt_le_maxConcurrency _ _
            omega
      · unfold maxConcurrency
        apply foldr_max_cast_le
        · exact le_foldr_max _ _
        · intro x hx
          obtain ⟨e, he, rfl⟩ := List.mem_map.mp hx
          have hpPoints : (e.start, 1) ∈ pointsOf (e0 :: es) :=
            (mem_pointsOf _ _).mpr ⟨e, he, Or.inl rfl⟩
          have hpS : (e.start, 1) ∈ sortPoints (pointsOf (e0 :: es)) :=
            hperm.mem_iff.mpr hpPoints
          have hmem2 : sumLE (pointsOf (e0 :: es)) (e.start, 1) ∈
              (sortPoints (pointsOf (e0 :: es))).map
                (fun p => sumLE (pointsOf (e0 :: es)) p) :=
            List.mem_map.mpr ⟨(e.start, 1), hpS, rfl⟩
          have hle3 := mem_le_foldr_max _ 0 _ hmem2
          rw [sumLE_points_start, countOpen_eq _ _ h] at hle3
          exact hle3
    rw [hmaineq]

/-- C6 witness: three pairwise-overlapping events give concurrency 3 and
day overflow 1. -/
theorem calculateDayOverflow_spec_witness :
    calculateDayOverflow
        [⟨"a", "p-1", 0, 10⟩, ⟨"b", "p-2", 1, 11⟩, ⟨"c", "p-3", 2, 12⟩] =
      max 0 ((maxConcurrency
        [⟨"a", "p-1", 0, 10⟩, ⟨"b", "p-2", 1, 11⟩, ⟨"c", "p-3", 2, 12⟩] : Int) - 2) ∧
      calculateDayOverflow [] = 0 :=
  calculateDayOverflow_spec
    [⟨"a", "p-1", 0, 10⟩, ⟨"b", "p-2", 1, 11⟩, ⟨"c", "p-3", 2, 12⟩] (by decide)

/-! ### Lemmas for the per-day overflow map (C4) -/

theorem lookupOverflow_append (m1 m2 : List ((Nat × Nat) × Nat)) (k : Nat × Nat) :
    lookupOverflow (m1 ++ m2) k =
      (lookupOverflow m1 k).orElse (fun _ => lookupOverflow m2 k) := by
  unfold lookupOverflow
  induction m1 with
  | nil => simp
  | cons hd tl ih =>
    rw [List.cons_append, List.find?_cons, List.find?_cons]
    split
    · simp
    · exact ih

theorem lookupOverflow_eq_none (m : List ((Nat × Nat) × Nat)) (k : Nat × Nat)
    (h : ∀ entry ∈ m, entry.1 ≠ k) : lookupOverflow m k = none := by
  unfold lookupOverflow
  rw [List.find?_eq_none.mpr ?_]
  · rfl
  · intro x hx
    simp only [beq_iff_eq]
    exact h x hx

theorem overflowRow_cons (eps : List EventPosition) (d1 : Int) (L wi j : Nat)
    (dn : Int) (rest : List Int) :
    overflowRow eps d1 L wi j (dn :: rest) =
      (if dn ≤ 0 then []
       else if 0 < (cellEventIds eps wi ((d1 + dn - 1) * msPerDay)).length - L
       then [((wi, j), (cellEventIds eps wi ((d1 + dn - 1) * msPerDay)).length - L)]
       else []) ++ overflowRow eps d1 L wi (j + 1) rest := by
  by_cases h0 : dn ≤ 0
  · simp only [overflowRow, if_pos h0]
  · by_cases hh : 0 < (cellEventIds eps wi ((d1 + dn - 1) * msPerDay)).length - L
    · simp only [overflowRow, if_neg h0, if_pos hh]
    · simp only [overflowRow, if_neg h0, if_neg hh]

theorem overflowRow_key (eps : List EventPosition) (d1 : Int) (L wi : Nat) :
    ∀ (days : List Int) (j : Nat) (entry : (Nat × Nat) × Nat),
      entry ∈ overflowRow eps d1 L wi j days → entry.1.1 = wi ∧ j ≤ entry.1.2 := by
  intro days
  induction days with
  | nil =>
    intro j entry he
    cases he
  | cons dn rest ih =>
    intro j entry he
    rw [overflowRow_cons] at he
    rcases List.mem_append.mp he with h | h
    · by_cases h0 : dn ≤ 0
      · rw [if_pos h0] at h
        cases h
      · rw [if_neg h0] at h
        split at h
        · simp only [List.mem_singleton] at h
          rw [h]
          exact ⟨rfl, le_refl _⟩
        · cases h
    · obtain ⟨h1, h2⟩ := ih (j + 1) entry h
      exact ⟨h1, by omega⟩

theorem overflowWeeks_key (eps : List EventPosition) (d1 : Int) (L : Nat) :
    ∀ (weeksL : List (List Int)) (wj : Nat) (entry : (Nat × Nat) × Nat),
      entry ∈ overflowWeeks eps d1 L wj weeksL → wj ≤ entry.1.1 := by
  intro weeksL
  induction weeksL with
  | nil =>
    intro wj entry he
    cases he
  | cons w0 rest ih =>
    intro wj entry he
    simp only [overflowWeeks] at he
    rcases List.mem_append.mp he with h | h
    · exact le_of_eq (overflowRow_key eps d1 L wj w0 0 entry h).1.symm
    · exact (Nat.le_succ wj).trans (ih (wj + 1) entry h)

theorem overflowRow_lookup (eps : List EventPosition) (d1 : Int) (L wi : Nat) :
    ∀ (days : List Int) (j i : Nat) (dayNum : Int),
      days[i]? = some dayNum → 0 < dayNum →
      lookupOverflow (overflowRow eps d1 L wi j days) (wi, j + i) =
        (if 0 < (cellEventIds eps wi ((d1 + dayNum - 1) * msPerDay)).length - L
         then some ((cellEventIds eps wi ((d1 + dayNum - 1) * msPerDay)).length - L)
         else none) := by
  intro days
  induction days with
  | nil =>
    intro j i dayNum hget
    cases hget
  | cons dn rest ih =>
    intro j i dayNum hget hpos
    rw [overflowRow_cons]
    cases i with
    | zero =>
      rw [List.getElem?_cons_zero, Option.some.injEq] at hget
      subst hget
      rw [Nat.add_zero, if_neg (by omega)]
      by_cases hh : 0 < (cellEventIds eps wi ((d1 + dn - 1) * msPerDay)).length - L
      · rw [if_pos hh, if_pos hh, lookupOverflow_append]
        simp [lookupOverflow, Option.orElse]
      · rw [if_neg hh, if_neg hh, List.nil_append]
        apply lookupOverflow_eq_none
        intro entry he
        obtain ⟨_, hge⟩ := overflowRow_key eps d1 L wi rest (j + 1) entry he
        intro hcontr
        rw [hcontr] at hge
        omega
    | succ i2 =>
      rw [List.getElem?_cons_succ] at hget
      rw [lookupOverflow_append]
      have hnone : lookupOverflow
          (if dn ≤ 0 then []
           else if 0 < (cellEventIds eps wi ((d1 + dn - 1) * msPerDay)).length - L
           then [((wi, j), (cellEventIds eps wi ((d1 + dn - 1) * msPerDay)).length - L)]
           else []) (wi, j + (i2 + 1)) = none := by
        apply lookupOverflow_eq_none
        intro entry he
        by_cases h0 : dn ≤ 0
        · rw [if_pos h0] at he
          cases he
        · rw [if_neg h0] at he
          split at he
          · simp only [List.mem_singleton] at he
            rw [he]
            intro hcontr
            have h2 : j = j + (i2 + 1) := congrArg Prod.snd hcontr
            omega
          · cases he
      rw [hnone]
      show lookupOverflow (overflowRow eps d1 L wi (j + 1) rest) (wi, j + (i2 + 1)) = _
      have harith : j + (i2 + 1) = (j + 1) + i2 := by omega
      rw [harith, ih (j + 1) i2 dayNum hget hpos]

theorem overflowWeeks_lookup (eps : List EventPosition) (d1 : Int) (L : Nat) :
    ∀ (weeksL : List (List Int)) (wj iw : Nat) (week : List Int) (di : Nat),
      weeksL[iw]? = some week →
      lookupOverflow (overflowWeeks eps d1 L wj weeksL) (wj + iw, di) =
        lookupOverflow (overflowRow eps d1 L (wj + iw) 0 week) (wj + iw, di) := by
  intro weeksL
  induction weeksL with
  | nil =>
    intro wj iw week di hget
    cases hget
  | cons w0 rest ih =>
    intro wj iw week di hget
    simp only [overflowWeeks]
    rw [lookupOverflow_append]
    cases iw with
    | zero =>
      rw [List.getElem?_cons_zero, Option.some.injEq] at hget
      subst hget
      rw [Nat.add_zero]
      cases hrl : lookupOverflow (overflowRow eps d1 L wj 0 w0) (wj, di) with
      | some v => rfl
      | none =>
        have hnone2 : lookupOverflow (overflowWeeks eps d1 L (wj + 1) rest)
            (wj, di) = none := by
          apply lookupOverflow_eq_none
          intro entry he
          have hk := overflowWeeks_key eps d1 L rest (wj + 1) entry he
          intro hcontr
          have h2 : entry.1.1 = wj := congrArg Prod.fst hcontr
          omega
        show lookupOverflow (overflowWeeks eps d1 L (wj + 1) rest) (wj, di) = none
        exact hnone2
    | succ iw2 =>
      rw [List.getElem?_cons_succ] at hget
      have hnone : lookupOverflow (overflowRow eps d1 L wj 0 w0)
          (wj + (iw2 + 1), di) = none := by
        apply lookupOverflow_eq_none
        intro entry he
        obtain ⟨h1, _⟩ := overflowRow_key eps d1 L wj w0 0 entry he
        intro hcontr
        have h2 : entry.1.1 = wj + (iw2 + 1) := congrArg Prod.fst hcontr
        omega
      rw [hnone]
      show lookupOverflow (overflowWeeks eps d1 L (wj + 1) rest) (wj + (iw2 + 1), di) = _
      have harith : wj + (iw2 + 1) = (wj + 1) + iw2 := by omega
      rw [harith, ih (wj + 1) iw2 week di hget]

theorem cellEventIds_sub (eps : List EventPosition) (wi : Nat) (ds : Int) :
    ∀ k ∈ cellEventIds eps wi ds, k ∈ monthGroupKeys eps := by
  intro k hk
  unfold cellEventIds at hk
  rw [collectUnique_mem] at hk
  obtain ⟨pos, hpos, rfl⟩ := List.mem_map.mp hk
  exact (monthGroupKeys_mem eps _).mpr ⟨pos, (List.mem_filter.mp hpos).1, rfl⟩

theorem visible_keys_le (eps : List EventPosition) (wi : Nat) (ds : Int) (L : Nat) :
    ((cellEventIds eps wi ds).filter
        (fun k => decide (jsRowLookup (monthGroupKeys eps) k < L))).length ≤ L := by
  have hnd : (cellEventIds eps wi ds).Nodup := collectUnique_nodup _
  have hsub : ∀ k ∈ cellEventIds eps wi ds, k ∈ monthGroupKeys eps :=
    cellEventIds_sub eps wi ds
  have hfnd : ((cellEventIds eps wi ds).filter
      (fun k => decide (jsRowLookup (monthGroupKeys eps) k < L))).Nodup :=
    hnd.filter _
  have hmapnd : (((cellEventIds eps wi ds).filter
      (fun k => decide (jsRowLookup (monthGroupKeys eps) k < L))).map
        (fun k => (monthGroupKeys eps).indexOf k)).Nodup := by
    apply List.Nodup.map_on ?_ hfnd
    intro x hx y hy hxy
    have hxk : x ∈ monthGroupKeys eps := hsub x (List.mem_of_mem_filter hx)
    have hyk : y ∈ monthGroupKeys eps := hsub y (List.mem_of_mem_filter hy)
    exact (List.indexOf_inj hxk hyk).mp hxy
  have hsub2 : (((cellEventIds eps wi ds).filter
      (fun k => decide (jsRowLookup (monthGroupKeys eps) k < L))).map
        (fun k => (monthGroupKeys eps).indexOf k)) ⊆ List.range L := by
    intro n hn
    obtain ⟨k, hk, rfl⟩ := List.mem_map.mp hn
    rw [List.mem_range]
    have hkmem : k ∈ monthGroupKeys eps := hsub k (List.mem_of_mem_filter hk)
    have hpred := List.of_mem_filter hk
    simp only [decide_eq_true_eq] at hpred
    rw [← jsRowLookup_eq_indexOf (monthGroupKeys eps) k hkmem]
    exact hpred
  have hlen := (List.subperm_of_subset hmapnd hsub2).length_le
  rw [List.length_map] at hlen
  simpa using hlen

theorem assignGlobalRows_isVisible (eps : List EventPosition) (L : Nat) :
    ∀ w b, (w, b) ∈ assignGlobalRows eps L → ∀ p ∈ b,
      p.isVisible = decide (jsRowLookup (monthGroupKeys eps) p.event.eventId < L) := by
  intro w b hb p hp
  have hmem : p ∈ bucketJoin (assignGlobalRows eps L) := bucketJoin_mem _ w b hb p hp
  have hjoin := assignFold_join (monthGroupKeys eps) L eps []
  have hmem2 : p ∈ bucketJoin ([] : List (Nat × List EventPosition)) ++
      eps.map (updatePos (monthGroupKeys eps) L) := hjoin.subset hmem
  simp only [bucketJoin, List.map_nil, List.flatten_nil, List.nil_append,
    List.mem_map] at hmem2
  obtain ⟨q, hq, rfl⟩ := hmem2
  rfl

/-- C4 (amended): each non-empty calendar cell's overflow entry is
`max(0, N − L)` (`N` the distinct group keys touching the day) with zero
entries omitted; but a key is marked visible iff its month-global sorted
row is below `L`, so the number of the day's keys marked visible is at
most `L` and can be less than `min(N, L)`. -/
theorem calculateOverflowByDay_conservation (eps : List EventPosition)
    (weeks : List (List Int)) (monthDay1 : Int) (L : Nat)
    (wi di : Nat) (week : List Int) (dayNum : Int)
    (hw : weeks[wi]? = some week) (hd : week[di]? = some dayNum)
    (hpos : 0 < dayNum) :
    (lookupOverflow (calculateOverflowByDay eps weeks monthDay1 L) (wi, di) =
        if 0 < (cellEventIds eps wi ((monthDay1 + dayNum - 1) * msPerDay)).length - L
        then some ((cellEventIds eps wi
          ((monthDay1 + dayNum - 1) * msPerDay)).length - L)
        else none) ∧
      (∀ w b, (w, b) ∈ assignGlobalRows eps L → ∀ p ∈ b,
        p.isVisible = decide (jsRowLookup (monthGroupKeys eps) p.event.eventId < L)) ∧
      ((cellEventIds eps wi ((monthDay1 + dayNum - 1) * msPerDay)).filter
          (fun k => decide (jsRowLookup (monthGroupKeys eps) k < L))).length ≤ L := by
  refine ⟨?_, assignGlobalRows_isVisible eps L, visible_keys_le eps wi _ L⟩
  unfold calculateOverflowByDay
  have h0 := overflowWeeks_lookup eps monthDay1 L weeks 0 wi week di hw
  rw [Nat.zero_add] at h0
  rw [h0]
  have h1 := overflowRow_lookup eps monthDay1 L wi week 0 di dayNum hd hpos
  rw [Nat.zero_add] at h1
  exact h1

/-- C4 counterexample: with keys "a" (an event on day 0 only) and "b"
(an event on day 1 only) and limit L = 1, the cell (0,1) has N = 1
distinct key ("b"), so the claim demands exactly min(N, L) = 1 of its
keys marked visible; but visibility follows the month-global sorted row
("b" has row 1 ≥ L), so the only position carrying "b" is not visible
and 0 of the cell's keys are marked visible. -/
theorem calculateOverflowByDay_counterexample :
    cellEventIds
        [⟨⟨"x", "a", 36000000, 39600000⟩, 0, 2, 0, 0, true, true, true⟩,
         ⟨⟨"y", "b", 122400000, 126000000⟩, 0, 2, 0, 0, true, true, true⟩]
        0 86400000 = ["b"] ∧
      assignGlobalRows
          [⟨⟨"x", "a", 36000000, 39600000⟩, 0, 2, 0, 0, true, true, true⟩,
           ⟨⟨"y", "b", 122400000, 126000000⟩, 0, 2, 0, 0, true, true, true⟩] 1 =
        [(0, [⟨⟨"x", "a", 36000000, 39600000⟩, 0, 2, 0, 0, true, true, true⟩,
              ⟨⟨"y", "b", 122400000, 126000000⟩, 0, 2, 1, 0, false, true, true⟩])] ∧
      (([⟨⟨"x", "a", 36000000, 39600000⟩, 0, 2, 0, 0, true, true, true⟩,
        ⟨⟨"y", "b", 122400000, 126000000⟩, 0, 2, 1, 0, false, true, true⟩] :
          List EventPosition).filter
          (fun p => p.isVisible &&
            (cellEventIds
              [⟨⟨"x", "a", 36000000, 39600000⟩, 0, 2, 0, 0, true, true, true⟩,
               ⟨⟨"y", "b", 122400000, 126000000⟩, 0, 2, 0, 0, true, true, true⟩]
              0 86400000).contains p.event.eventId)).length = 0 := by
  have hab : ("a" : String) ≤ "b" := by
    rw [String.le_iff_toList_le]
    decide
  have hcu : collectUnique
      (([⟨⟨"x", "a", 36000000, 39600000⟩, 0, 2, 0, 0, true, true, true⟩,
        ⟨⟨"y", "b", 122400000, 126000000⟩, 0, 2, 0, 0, true, true,
          true⟩] : List EventPosition).map (fun pos => pos.event.eventId)) =
      ["a", "b"] := by
    decide
  have hsort : monthGroupKeys
      [⟨⟨"x", "a", 36000000, 39600000⟩, 0, 2, 0, 0, true, true, true⟩,
       ⟨⟨"y", "b", 122400000, 126000000⟩, 0, 2, 0, 0, true, true, true⟩] =
      ["a", "b"] := by
    unfold monthGroupKeys
    rw [hcu]
    unfold sortStrings
    simp [List.insertionSort, List.orderedInsert, hab]
  refine ⟨by decide, ?_, by decide⟩
  show List.foldl (fun g pos => mapPush g pos.weekIndex
      (updatePos (monthGroupKeys
        [⟨⟨"x", "a", 36000000, 39600000⟩, 0, 2, 0, 0, true, true, true⟩,
         ⟨⟨"y", "b", 122400000, 126000000⟩, 0, 2, 0, 0, true, true, true⟩]) 1 pos))
      []
      [⟨⟨"x", "a", 36000000, 39600000⟩, 0, 2, 0, 0, true, true, true⟩,
       ⟨⟨"y", "b", 122400000, 126000000⟩, 0, 2, 0, 0, true, true, true⟩] = _
  rw [hsort]
  decide

/-- C4 witness: the amended statement at the concrete two-key layout with
L = 1, cell (0, 1) of the single-week grid [[1, 2]]. -/
theorem calculateOverflowByDay_conservation_witness :
    (lookupOverflow
        (calculateOverflowByDay
          [⟨⟨"x", "a", 36000000, 39600000⟩, 0, 2, 0, 0, true, true, true⟩,
           ⟨⟨"y", "b", 122400000, 126000000⟩, 0, 2, 0, 0, true, true, true⟩]
          [[1, 2]] 0 1) (0, 1) =
        if 0 < (cellEventIds
            [⟨⟨"x", "a", 36000000, 39600000⟩, 0, 2, 0, 0, true, true, true⟩,
             ⟨⟨"y", "b", 122400000, 126000000⟩, 0, 2, 0, 0, true, true, true⟩]
            0 ((0 + 2 - 1) * msPerDay)).length - 1
        then some ((cellEventIds
            [⟨⟨"x", "a", 36000000, 39600000⟩, 0, 2, 0, 0, true, true, true⟩,
             ⟨⟨"y", "b", 122400000, 126000000⟩, 0, 2, 0, 0, true, true, true⟩]
            0 ((0 + 2 - 1) * msPerDay)).length - 1)
        else none) ∧
      (∀ w b, (w, b) ∈ assignGlobalRows
          [⟨⟨"x", "a", 36000000, 39600000⟩, 0, 2, 0, 0, true, true, true⟩,
           ⟨⟨"y", "b", 122400000, 126000000⟩, 0, 2, 0, 0, true, true, true⟩] 1 →
        ∀ p ∈ b, p.isVisible = decide (jsRowLookup (monthGroupKeys
          [⟨⟨"x", "a", 36000000, 39600000⟩, 0, 2, 0, 0, true, true, true⟩,
           ⟨⟨"y", "b", 122400000, 126000000⟩, 0, 2, 0, 0, true, true, true⟩])
          p.event.eventId < 1)) ∧
      ((cellEventIds
          [⟨⟨"x", "a", 36000000, 39600000⟩, 0, 2, 0, 0, true, true, true⟩,
           ⟨⟨"y", "b", 122400000, 126000000⟩, 0, 2, 0, 0, true, true, true⟩]
          0 ((0 + 2 - 1) * msPerDay)).filter
          (fun k => decide (jsRowLookup (monthGroupKeys
            [⟨⟨"x", "a", 36000000, 39600000⟩, 0, 2, 0, 0, true, true, true⟩,
             ⟨⟨"y", "b", 122400000, 126000000⟩, 0, 2, 0, 0, true, true, true⟩])
            k < 1))).length ≤ 1 :=
  calculateOverflowByDay_conservation
    [⟨⟨"x", "a", 36000000, 39600000⟩, 0, 2, 0, 0, true, true, true⟩,
     ⟨⟨"y", "b", 122400000, 126000000⟩, 0, 2, 0, 0, true, true, true⟩]
    [[1, 2]] 0 1 0 1 [1, 2] 2 (by decide) (by decide) (by decide)
